import Mathlib

/-!
Formal model of the egg-price interpolation engine found in `EgPrice.py`,
`Source Code/app.py` and `site/app.py`.

The engine is embedded shallowly:

* Calendar dates are modelled by their proleptic-Gregorian day ordinal
  (an `Int`); the Python code only ever subtracts and compares dates, and
  both operations coincide with integer arithmetic on ordinals.
* Python floats are modelled by `ℚ` (exact arithmetic); Python's
  `ZeroDivisionError` on float division by zero is modelled by `Except`
  variants of the evaluators that fail exactly when a denominator is zero.
* `bisect.bisect_left` on a sorted list returns the first index whose
  element is `≥` the target (the list length when there is none), which is
  `List.findIdx` of that predicate.
* Python's stable `list.sort` / `sorted` are modelled by `List.mergeSort`,
  which is stable.
* The `while len(selected) < n_points` loop of `choose_nearest_points`
  adds exactly one element per iteration, so it is modelled by structural
  recursion on the number of points still to pick.
-/

namespace EggPrice

open List Polynomial Finset

/-- Day ordinal of `date(2023, 8, 21)` (the Monday starting Week 1),
`BASE_WEEK1_MONDAY` in all three source files. -/
def BASE_WEEK1_MONDAY : Int := 738753

/-- Embedding of `date_to_fractional_week` (same logic in `EgPrice.py` and in
both web shells): reject dates before the base Monday, then return
`week_number + day_index / 7` where `week_number = delta_days // 7 + 1` and
`day_index = delta_days % 7`.  Lean's `/` and `%` on `Int` are Euclidean
division, which agrees with Python's `//` and `%` for the positive
divisor `7`. -/
def date_to_fractional_week (d : Int) : Except String ℚ :=
  if d < BASE_WEEK1_MONDAY then Except.error "Date is before Week 1."
  else
    let delta_days : Int := d - BASE_WEEK1_MONDAY
    let week_number : Int := delta_days / 7 + 1
    let day_index : Int := delta_days % 7
    Except.ok ((week_number : ℚ) + (day_index : ℚ) / 7)

/-- The 119-entry weekly price table of `Source Code/app.py` and
`site/app.py`. -/
def weekly_prices : List ℚ :=
  [7.29, 7.23, 7.25, 7.34, 7.56, 7.64, 7.73, 7.87, 7.88, 7.96,
   8.02, 8.10, 8.14, 8.18, 8.19, 8.20, 8.17, 8.14, 8.13, 8.08,
   8.07, 7.95, 7.95, 7.80, 7.71, 7.46, 7.38, 7.37, 7.37, 7.34,
   7.33, 7.31, 7.26, 7.08, 7.04, 7.11, 7.00, 7.00, 6.91, 6.93,
   7.06, 7.10, 7.02, 7.12, 7.16, 7.29, 7.47, 7.55, 7.71, 7.80,
   7.88, 7.93, 8.00, 8.04, 8.07, 8.12, 8.17, 8.27, 8.29, 8.38,
   8.43, 8.49, 8.46, 8.46, 8.45, 8.47, 8.43, 8.45, 8.40, 8.38,
   8.36, 8.39, 8.31, 8.17, 8.14, 8.04, 7.96, 7.95, 7.96, 8.00,
   8.02, 8.05, 8.07, 8.12, 8.12, 8.14, 8.12, 8.11, 8.09, 8.04,
   8.00, 8.04, 8.01, 8.00, 8.05, 8.00, 8.01, 8.01, 8.05, 8.07,
   8.07, 8.11, 8.17, 8.20, 8.24, 8.24, 8.31, 8.30, 8.32, 8.35,
   8.32, 8.37, 8.35, 8.33, 8.32, 8.33, 8.34, 8.31, 8.29]

/-- Embedding of `build_xy` from the web shells: coordinates are the
consecutive integers `1 .. len(prices)`, values are the prices. -/
def build_xy (prices : List ℚ) : List ℚ × List ℚ :=
  ((List.range prices.length).map (fun i => ((i + 1 : ℕ) : ℚ)), prices)

/-- Embedding of `bisect.bisect_left(a, t)` for a sorted list `a`: the first
index whose element is `≥ t`, or `a.length` if every element is `< t`. -/
def bisect_left (a : List ℚ) (t : ℚ) : ℕ :=
  a.findIdx (fun v => decide (t ≤ v))

/-- One observation of the series store as the triple appended by
`choose_nearest_points`: `(x_all[i], y_all[i], i)`. -/
def obsTriple (x y : List ℚ) (i : ℕ) : ℚ × ℚ × ℕ :=
  (x.getD i 0, y.getD i 0, i)

/-- One observation as the pair zipped by `nearest_points`:
`(x_all[i], y_all[i])`. -/
def obsPair (x y : List ℚ) (i : ℕ) : ℚ × ℚ :=
  (x.getD i 0, y.getD i 0)

/-- The `pick_left` flag computed at the top of each iteration of the
`while` loop of `choose_nearest_points`: an exhausted left cursor forces a
right pick, an exhausted right cursor forces a left pick, and otherwise the
left neighbour is taken iff it is at most as far from the target
(Python's `<=`, the left tie-break). -/
def pickLeftB (x : List ℚ) (t : ℚ) (left : Int) (right : ℕ) : Bool :=
  if left < 0 then false
  else if x.length ≤ right then true
  else decide (|x.getD left.toNat 0 - t| ≤ |x.getD right 0 - t|)

/-- The body of the `while len(selected) < n_points` loop of
`choose_nearest_points` in `EgPrice.py`, run `k` more times.  `left` may go
negative exactly as in Python, hence `Int`.  (When both cursors are out of
range, which the callers' `2 ≤ n ≤ len(x)` validation makes unreachable,
Python raises `IndexError`; the embedding is only used within bounds.) -/
def chooseLoop (x y : List ℚ) (t : ℚ) :
    ℕ → Int → ℕ → List (ℚ × ℚ × ℕ) → List (ℚ × ℚ × ℕ)
  | 0, _, _, selected => selected
  | k + 1, left, right, selected =>
    if pickLeftB x t left right then
      chooseLoop x y t k (left - 1) right (selected ++ [obsTriple x y left.toNat])
    else
      chooseLoop x y t k left (right + 1) (selected ++ [obsTriple x y right])

/-- Embedding of `choose_nearest_points` from `EgPrice.py` (the
symmetric-expansion selector): expand two cursors outward from the insertion
position, preferring the left neighbour on ties, then re-sort the picks
ascending by coordinate (a stable sort on the first component). -/
def choose_nearest_points (x y : List ℚ) (t : ℚ) (n : ℕ) :
    List ℚ × List ℚ × List ℕ :=
  let pos := bisect_left x t
  let selected := chooseLoop x y t n ((pos : Int) - 1) pos []
  let sorted := selected.mergeSort (fun a b => decide (a.1 ≤ b.1))
  (sorted.map (fun p => p.1), sorted.map (fun p => p.2.1),
   sorted.map (fun p => p.2.2))

/-- Embedding of `nearest_points` from the web shells (the window-then-sort
selector): take the window `x_all[max(0, pos-n) : min(len, pos+n)]`, zip it
with the values, stably sort by absolute distance to the target, truncate to
`n`, and re-sort ascending by coordinate.  `ℕ`-subtraction gives the
`max(0, ·)` clamping and `List.take`/`List.drop` the slice clamping. -/
def nearest_points (x y : List ℚ) (t : ℚ) (n : ℕ) : List ℚ × List ℚ :=
  let pos := bisect_left x t
  let lo := pos - n
  let hi := min x.length (pos + n)
  let pairs := ((x.zip y).drop lo).take (hi - lo)
  let bydist := pairs.mergeSort (fun p q => decide (|p.1 - t| ≤ |q.1 - t|))
  let chosen := (bydist.take n).mergeSort (fun p q => decide (p.1 ≤ q.1))
  (chosen.map (fun p => p.1), chosen.map (fun p => p.2))

/-- Column `j` of the divided-difference table of
`divided_difference_newton`: column `0` is `y`, and column `j+1` has entries
`(col[i+1] - col[i]) / (x[i+j+1] - x[i])` for `i < n - (j+1)`, exactly the
entries `table[i][j+1]` computed by the `for j / for i` loops (column `j`
has `n - j` meaningful entries, so each column is one shorter than the
previous one). -/
def newtonCol (x y : List ℚ) : ℕ → List ℚ
  | 0 => y
  | j + 1 =>
    let col := newtonCol x y j
    (List.range (col.length - 1)).map (fun i =>
      (col.getD (i + 1) 0 - col.getD i 0) / (x.getD (i + (j + 1)) 0 - x.getD i 0))

/-- Embedding of `divided_difference_newton` from `EgPrice.py`:
`coeffs[j] = table[0][j]` is the head of column `j`, and the estimate is the
forward accumulation `result += coeffs[j] * prod` with
`prod *= (target - x[j-1])` (the Python loop index `j = 1..n-1` is shifted
to `j = 0..n-2` here).  Returns `(result, coeffs)` as the source does. -/
def divided_difference_newton (x y : List ℚ) (t : ℚ) : ℚ × List ℚ :=
  let n := x.length
  let coeffs := (List.range n).map (fun j => (newtonCol x y j).getD 0 0)
  let result := ((List.range (n - 1)).foldl (fun (s : ℚ × ℚ) j =>
      let prod := s.2 * (t - x.getD j 0)
      (s.1 + coeffs.getD (j + 1) 0 * prod, prod)) (coeffs.getD 0 0, 1)).1
  (result, coeffs)

/-- The `newton_interpolation` of the web shells runs the same
divided-difference table and forward accumulation as
`divided_difference_newton` and returns only the estimate. -/
def newton_interpolation (x y : List ℚ) (t : ℚ) : ℚ :=
  (divided_difference_newton x y t).1

/-- Embedding of `lagrange_interpolation` (identical in all three shells):
`total += y[i] * Li` where `Li` is the product over `j ≠ i` of
`(target - x[j]) / (x[i] - x[j])`. -/
def lagrange_interpolation (x y : List ℚ) (t : ℚ) : ℚ :=
  let n := x.length
  (List.range n).foldl (fun total i =>
    total + y.getD i 0 *
      ((List.range n).foldl (fun Li j =>
        if i = j then Li
        else Li * ((t - x.getD j 0) / (x.getD i 0 - x.getD j 0))) 1)) 0

/-- Left fold that stops at the first raised exception, the shape of every
Python `for` loop whose body may raise. -/
def foldE {α β : Type} (f : β → α → Except String β) : List α → β → Except String β
  | [], b => Except.ok b
  | a :: l, b =>
    match f b a with
    | Except.error e => Except.error e
    | Except.ok b2 => foldE f l b2

/-- Elementwise map that stops at the first raised exception (a Python list
comprehension / loop building a list whose body may raise). -/
def mapE {α β : Type} (f : α → Except String β) : List α → Except String (List β)
  | [] => Except.ok []
  | a :: l =>
    match f a with
    | Except.error e => Except.error e
    | Except.ok b =>
      match mapE f l with
      | Except.error e => Except.error e
      | Except.ok r => Except.ok (b :: r)

/-- Fallible version of one divided-difference column: Python float division
raises `ZeroDivisionError` when the denominator `x[i+jj] - x[i]` is zero, so
the column computation is `Except`-valued. -/
def newtonColE (x : List ℚ) (jj : ℕ) (col : List ℚ) : Except String (List ℚ) :=
  mapE (fun i =>
      let denom := x.getD (i + jj) 0 - x.getD i 0
      if denom = 0 then Except.error "float division by zero"
      else Except.ok ((col.getD (i + 1) 0 - col.getD i 0) / denom))
    (List.range (col.length - 1))

/-- Fallible embedding of `divided_difference_newton`: builds the columns in
order exactly as the `for j in range(1, n)` loop does, propagating the first
`ZeroDivisionError`, then runs the (division-free) forward accumulation. -/
def divided_difference_newtonE (x y : List ℚ) (t : ℚ) :
    Except String (ℚ × List ℚ) :=
  let n := x.length
  match foldE (fun (st : List ℚ × List ℚ) j =>
      match newtonColE x (j + 1) st.2 with
      | Except.error e => Except.error e
      | Except.ok col => Except.ok (st.1 ++ [col.getD 0 0], col))
    (List.range (n - 1)) ([y.getD 0 0], y) with
  | Except.error e => Except.error e
  | Except.ok st =>
    let coeffs := st.1
    let result := ((List.range (n - 1)).foldl (fun (s : ℚ × ℚ) j =>
        let prod := s.2 * (t - x.getD j 0)
        (s.1 + coeffs.getD (j + 1) 0 * prod, prod)) (coeffs.getD 0 0, 1)).1
    Except.ok (result, coeffs)

/-- Fallible embedding of `lagrange_interpolation`: Python float division
raises `ZeroDivisionError` when `x[i] - x[j]` is zero for some `j ≠ i`. -/
def lagrange_interpolationE (x y : List ℚ) (t : ℚ) : Except String ℚ :=
  let n := x.length
  foldE (fun total i =>
      match foldE (fun Li j =>
          if i = j then Except.ok Li
          else
            let denom := x.getD i 0 - x.getD j 0
            if denom = 0 then Except.error "float division by zero"
            else Except.ok (Li * ((t - x.getD j 0) / denom)))
        (List.range n) 1 with
      | Except.error e => Except.error e
      | Except.ok Li => Except.ok (total + y.getD i 0 * Li))
    (List.range n) 0

/-- The `MAX_POINTS = 119` constant of `Source Code/app.py` (equal to the
number of populated store entries there). -/
def MAX_POINTS : ℕ := 119

/-- Embedding of the POST branch of `index()` in `Source Code/app.py`, after
the collaborator-layer date/integer parsing: the point count is validated
(`n < 2 or n > MAX_POINTS` raises) before the date is mapped; then the
window-then-sort selector and both evaluators run on the store. -/
def sc_index_query (d : Int) (n : ℕ) : Except String (ℚ × ℚ) :=
  if n < 2 ∨ MAX_POINTS < n then
    Except.error "Data points must be between 2 and 119."
  else
    match date_to_fractional_week d with
    | Except.error e => Except.error e
    | Except.ok target_x =>
      let xy := build_xy weekly_prices
      let sel := nearest_points xy.1 xy.2 target_x n
      match divided_difference_newtonE sel.1 sel.2 target_x with
      | Except.error e => Except.error e
      | Except.ok newton_val =>
        match lagrange_interpolationE sel.1 sel.2 target_x with
        | Except.error e => Except.error e
        | Except.ok lag_val => Except.ok (newton_val.1, lag_val)

/-- Embedding of the POST branch of `index()` in `site/app.py`: identical
pipeline but with no validation of the requested point count at all. -/
def site_index_query (d : Int) (n : ℕ) : Except String (ℚ × ℚ) :=
  match date_to_fractional_week d with
  | Except.error e => Except.error e
  | Except.ok t =>
    let xy := build_xy weekly_prices
    let sel := nearest_points xy.1 xy.2 t n
    match divided_difference_newtonE sel.1 sel.2 t with
    | Except.error e => Except.error e
    | Except.ok newton =>
      match lagrange_interpolationE sel.1 sel.2 t with
      | Except.error e => Except.error e
      | Except.ok lagrange => Except.ok (newton.1, lagrange)

/-- Strict priority order used to compare two store indices as interpolation
candidates for target `t`: closer wins, and on equal distance the smaller
coordinate (= smaller index) wins, matching both the `<=` tie-break of
`choose_nearest_points` and the stable distance sort of `nearest_points`. -/
def IdxLt (x : List ℚ) (t : ℚ) (i e : ℕ) : Prop :=
  |x.getD i 0 - t| < |x.getD e 0 - t| ∨
    (|x.getD i 0 - t| = |x.getD e 0 - t| ∧ i < e)

/-- The same priority order on observation pairs, compared by coordinate. -/
def PairLt (t : ℚ) (p q : ℚ × ℚ) : Prop :=
  |p.1 - t| < |q.1 - t| ∨ (|p.1 - t| = |q.1 - t| ∧ p.1 < q.1)

/-! ### The coordinate mapper -/

theorem date_to_fractional_week_closed (d : Int) (h : BASE_WEEK1_MONDAY ≤ d) :
    date_to_fractional_week d =
      Except.ok (1 + ((d - BASE_WEEK1_MONDAY : Int) : ℚ) / 7) := by
  have hnot : ¬ d < BASE_WEEK1_MONDAY := not_lt.mpr h
  unfold date_to_fractional_week
  rw [if_neg hnot]
  have hdm : ((7 * ((d - BASE_WEEK1_MONDAY) / 7) + (d - BASE_WEEK1_MONDAY) % 7 : Int) : ℚ)
      = ((d - BASE_WEEK1_MONDAY : Int) : ℚ) := by
    exact_mod_cast congrArg (fun z : Int => (z : ℚ)) (Int.ediv_add_emod (d - BASE_WEEK1_MONDAY) 7)
  push_cast at hdm ⊢
  field_simp
  linarith [hdm]

/-- C3: for dates on or after the base Monday the coordinate mapper sends the
base date to exactly `1`, is non-decreasing, and any two dates one day apart
(week boundaries included) map to coordinates exactly `1/7` apart. -/
theorem mapper_base_monotone_daystep (d e : Int)
    (hd : BASE_WEEK1_MONDAY ≤ d) (he : BASE_WEEK1_MONDAY ≤ e) (qd qe : ℚ)
    (hqd : date_to_fractional_week d = Except.ok qd)
    (hqe : date_to_fractional_week e = Except.ok qe) :
    date_to_fractional_week BASE_WEEK1_MONDAY = Except.ok 1 ∧
    (d ≤ e → qd ≤ qe) ∧
    (e = d + 1 → qe = qd + 1 / 7) := by
  have hbase : date_to_fractional_week BASE_WEEK1_MONDAY = Except.ok 1 := by
    rw [date_to_fractional_week_closed BASE_WEEK1_MONDAY le_rfl]
    norm_num
  rw [date_to_fractional_week_closed d hd] at hqd
  rw [date_to_fractional_week_closed e he] at hqe
  have hqd' : qd = 1 + ((d - BASE_WEEK1_MONDAY : Int) : ℚ) / 7 :=
    (Except.ok.injEq _ _).mp hqd.symm
  have hqe' : qe = 1 + ((e - BASE_WEEK1_MONDAY : Int) : ℚ) / 7 :=
    (Except.ok.injEq _ _).mp hqe.symm
  refine ⟨hbase, ?_, ?_⟩
  · intro hde
    have : ((d - BASE_WEEK1_MONDAY : Int) : ℚ) ≤ ((e - BASE_WEEK1_MONDAY : Int) : ℚ) := by
      exact_mod_cast sub_le_sub_right hde _
    rw [hqd', hqe']
    linarith
  · intro hed
    subst hed
    rw [hqd', hqe']
    push_cast
    ring

/-- C6: the coordinate mapper fails exactly for dates strictly before the
base Monday, and for every other date it succeeds with a coordinate `≥ 1`. -/
theorem mapper_error_iff_before_base (d : Int) :
    ((∃ msg, date_to_fractional_week d = Except.error msg) ↔
      d < BASE_WEEK1_MONDAY) ∧
    (BASE_WEEK1_MONDAY ≤ d →
      ∃ q, date_to_fractional_week d = Except.ok q ∧ 1 ≤ q) := by
  constructor
  · constructor
    · rintro ⟨msg, hmsg⟩
      by_contra hlt
      rw [date_to_fractional_week_closed d (not_lt.mp hlt)] at hmsg
      exact Except.noConfusion hmsg
    · intro hlt
      refine ⟨"Date is before Week 1.", ?_⟩
      unfold date_to_fractional_week
      rw [if_pos hlt]
  · intro h
    refine ⟨1 + ((d - BASE_WEEK1_MONDAY : Int) : ℚ) / 7,
      date_to_fractional_week_closed d h, ?_⟩
    have : (0:ℚ) ≤ ((d - BASE_WEEK1_MONDAY : Int) : ℚ) := by
      exact_mod_cast sub_nonneg.mpr h
    linarith

theorem mapper_base_monotone_daystep_witness :
    date_to_fractional_week BASE_WEEK1_MONDAY = Except.ok 1 ∧
    (1 : ℚ) ≤ 8 / 7 ∧ (8 / 7 : ℚ) = 1 + 1 / 7 := by
  have h1 : date_to_fractional_week 738753 = Except.ok 1 := by
    rw [date_to_fractional_week_closed 738753 (by norm_num [BASE_WEEK1_MONDAY])]
    norm_num [BASE_WEEK1_MONDAY]
  have h2 : date_to_fractional_week 738754 = Except.ok (8 / 7) := by
    rw [date_to_fractional_week_closed 738754 (by norm_num [BASE_WEEK1_MONDAY])]
    norm_num [BASE_WEEK1_MONDAY]
  have h := mapper_base_monotone_daystep 738753 738754
    (by norm_num [BASE_WEEK1_MONDAY]) (by norm_num [BASE_WEEK1_MONDAY])
    1 (8 / 7) h1 h2
  exact ⟨h.1, h.2.1 (by norm_num), h.2.2 rfl⟩

theorem mapper_error_iff_before_base_witness :
    ∃ msg, date_to_fractional_week 738752 = Except.error msg :=
  (mapper_error_iff_before_base 738752).1.mpr (by norm_num [BASE_WEEK1_MONDAY])

/-! ### Degenerate selections make both fallible evaluators raise -/

theorem foldE_ok_mem {α β : Type} (f : β → α → Except String β) (l : List α)
    (b r : β) (h : foldE f l b = Except.ok r) :
    ∀ a ∈ l, ∃ acc res, f acc a = Except.ok res := by
  induction l generalizing b with
  | nil => intro a ha; cases ha
  | cons hd tl ih =>
    intro a ha
    cases hfb : f b hd with
    | error e => simp [foldE, hfb] at h
    | ok b2 =>
      simp only [foldE, hfb] at h
      rcases List.mem_cons.mp ha with rfl | ha
      · exact ⟨b, b2, hfb⟩
      · exact ih b2 h a ha

theorem mapE_ok_mem {α β : Type} (f : α → Except String β) (l : List α)
    (r : List β) (h : mapE f l = Except.ok r) :
    ∀ a ∈ l, ∃ b, f a = Except.ok b := by
  induction l generalizing r with
  | nil => intro a ha; cases ha
  | cons hd tl ih =>
    intro a ha
    cases hfa : f hd with
    | error e => simp [mapE, hfa] at h
    | ok b =>
      cases htl : mapE f tl with
      | error e => simp [mapE, hfa, htl] at h
      | ok rr =>
        rcases List.mem_cons.mp ha with rfl | ha
        · exact ⟨b, hfa⟩
        · exact ih rr htl a ha

theorem mapE_ok_length {α β : Type} (f : α → Except String β) (l : List α)
    (r : List β) (h : mapE f l = Except.ok r) : r.length = l.length := by
  induction l generalizing r with
  | nil => simp [mapE] at h; subst h; rfl
  | cons hd tl ih =>
    cases hfa : f hd with
    | error e => simp [mapE, hfa] at h
    | ok b =>
      cases htl : mapE f tl with
      | error e => simp [mapE, hfa, htl] at h
      | ok rr =>
        simp only [mapE, hfa, htl] at h
        cases h
        simp [ih rr htl]

theorem newtonColE_ok_length (x : List ℚ) (jj : ℕ) (col c : List ℚ)
    (h : newtonColE x jj col = Except.ok c) : c.length = col.length - 1 := by
  simpa using mapE_ok_length _ _ _ h

theorem newton_foldE_ok (x : List ℚ) (k : ℕ) :
    ∀ (s : ℕ) (acc col : List ℚ) (st : List ℚ × List ℚ),
    foldE (fun (st : List ℚ × List ℚ) j =>
        match newtonColE x (j + 1) st.2 with
        | Except.error e => Except.error e
        | Except.ok col => Except.ok (st.1 ++ [col.getD 0 0], col))
      (List.range' s k) (acc, col) = Except.ok st →
    ∀ j, s ≤ j → j < s + k →
      ∃ c : List ℚ, c.length = col.length - (j - s) ∧
        ∃ c2, newtonColE x (j + 1) c = Except.ok c2 := by
  induction k with
  | zero => intro s acc col st _ j hsj hjk; omega
  | succ k ih =>
    intro s acc col st h j hsj hjk
    rw [List.range'_succ] at h
    cases hcol : newtonColE x (s + 1) col with
    | error e => simp [foldE, hcol] at h
    | ok c2 =>
      simp only [foldE, hcol] at h
      rcases Nat.eq_or_lt_of_le hsj with rfl | hlt
      · exact ⟨col, by simp, c2, hcol⟩
      · obtain ⟨c, hc, hcok⟩ := ih (s + 1) (acc ++ [c2.getD 0 0]) c2 st h j hlt (by omega)
        refine ⟨c, ?_, hcok⟩
        have := newtonColE_ok_length x (s + 1) col c2 hcol
        omega

theorem newtonE_ok_distinct (x y : List ℚ) (t : ℚ) (v : ℚ × List ℚ)
    (hlen : y.length = x.length)
    (h : divided_difference_newtonE x y t = Except.ok v) :
    ∀ a b, a < b → b < x.length → x.getD a 0 ≠ x.getD b 0 := by
  intro a b hab hb
  unfold divided_difference_newtonE at h
  dsimp only [] at h
  cases hfold : foldE (fun (st : List ℚ × List ℚ) j =>
      match newtonColE x (j + 1) st.2 with
      | Except.error e => Except.error e
      | Except.ok col => Except.ok (st.1 ++ [col.getD 0 0], col))
    (List.range (x.length - 1)) ([y.getD 0 0], y) with
  | error e => rw [hfold] at h; exact absurd h (by simp)
  | ok st =>
    have hfold' : foldE (fun (st : List ℚ × List ℚ) j =>
        match newtonColE x (j + 1) st.2 with
        | Except.error e => Except.error e
        | Except.ok col => Except.ok (st.1 ++ [col.getD 0 0], col))
      (List.range' 0 (x.length - 1)) ([y.getD 0 0], y) = Except.ok st := by
      rw [← List.range_eq_range']; exact hfold
    obtain ⟨c, hclen, c2, hcok⟩ :=
      newton_foldE_ok x (x.length - 1) 0 [y.getD 0 0] y st hfold'
        (b - a - 1) (by omega) (by omega)
    have hc : c.length = x.length - (b - a - 1) := by rw [hclen, hlen]; omega
    have hmem : a ∈ List.range (c.length - 1) := by
      rw [List.mem_range]; omega
    obtain ⟨w, hw⟩ := mapE_ok_mem _ _ _ hcok a hmem
    have hba : b - a - 1 + 1 = b - a := by omega
    rw [hba] at hw
    intro heq
    have hzero : x.getD (a + (b - a)) 0 - x.getD a 0 = 0 := by
      have : a + (b - a) = b := by omega
      rw [this, heq, sub_self]
    rw [if_pos hzero] at hw
    exact Except.noConfusion hw

theorem lagrangeE_ok_distinct (x y : List ℚ) (t : ℚ) (v : ℚ)
    (h : lagrange_interpolationE x y t = Except.ok v) :
    ∀ a b, a < b → b < x.length → x.getD a 0 ≠ x.getD b 0 := by
  intro a b hab hb heq
  unfold lagrange_interpolationE at h
  obtain ⟨acc, res, hstep⟩ := foldE_ok_mem _ _ _ _ h a (by
    rw [List.mem_range]; omega)
  cases hinner : foldE (fun Li j =>
      if a = j then Except.ok Li
      else
        let denom := x.getD a 0 - x.getD j 0
        if denom = 0 then Except.error "float division by zero"
        else Except.ok (Li * ((t - x.getD j 0) / denom)))
    (List.range x.length) 1 with
  | error e => rw [hinner] at hstep; exact Except.noConfusion hstep
  | ok Li =>
    obtain ⟨acc2, res2, hstep2⟩ := foldE_ok_mem _ _ _ _ hinner b (by
      rw [List.mem_range]; omega)
    have hne : ¬ a = b := by omega
    rw [if_neg hne] at hstep2
    have hzero : x.getD a 0 - x.getD b 0 = 0 := by rw [heq, sub_self]
    simp only [hzero, if_pos] at hstep2
    exact Except.noConfusion hstep2

/-- C5: any selection containing two equal coordinates makes both fallible
evaluators raise (`ZeroDivisionError`, the engine's `DegenerateInputError`)
instead of returning an estimate. -/
theorem degenerate_selection_errors (x y : List ℚ) (t : ℚ) (a b : ℕ)
    (hab : a < b) (hb : b < x.length) (heq : x.getD a 0 = x.getD b 0)
    (hlen : y.length = x.length) :
    (∀ v, divided_difference_newtonE x y t ≠ Except.ok v) ∧
    (∀ v, lagrange_interpolationE x y t ≠ Except.ok v) := by
  constructor
  · intro v hok
    exact newtonE_ok_distinct x y t v hlen hok a b hab hb heq
  · intro v hok
    exact lagrangeE_ok_distinct x y t v hok a b hab hb heq

theorem degenerate_selection_errors_witness :
    (∀ v, divided_difference_newtonE [1, 1] [2, 3] 0 ≠ Except.ok v) ∧
    (∀ v, lagrange_interpolationE [1, 1] [2, 3] 0 ≠ Except.ok v) :=
  degenerate_selection_errors [1, 1] [2, 3] 0 0 1 (by norm_num) (by simp)
    (by simp) (by simp)

/-! ### Basic facts about the insertion position and sorted stores -/

theorem sorted_getD_lt (x : List ℚ) (hs : x.Pairwise (· < ·)) (i j : ℕ)
    (hij : i < j) (hj : j < x.length) : x.getD i 0 < x.getD j 0 := by
  have hi : i < x.length := lt_trans hij hj
  rw [List.getD_eq_getElem x 0 hi, List.getD_eq_getElem x 0 hj]
  exact List.pairwise_iff_getElem.mp hs i j hi hj hij

theorem bisect_left_le_length (a : List ℚ) (t : ℚ) :
    bisect_left a t ≤ a.length :=
  List.findIdx_le_length _

theorem getD_lt_of_lt_bisect_left (a : List ℚ) (t : ℚ) (i : ℕ)
    (hi : i < bisect_left a t) : a.getD i 0 < t := by
  have hlen : i < a.length := lt_of_lt_of_le hi (bisect_left_le_length a t)
  have h := List.not_of_lt_findIdx hi
  rw [List.getD_eq_getElem a 0 hlen]
  simpa using h

theorem le_getD_of_bisect_left_le (a : List ℚ) (t : ℚ) (i : ℕ)
    (hs : a.Pairwise (· < ·)) (hpos : bisect_left a t ≤ i) (hi : i < a.length) :
    t ≤ a.getD i 0 := by
  have hposlen : bisect_left a t < a.length := lt_of_le_of_lt hpos hi
  have hpt : t ≤ a.getD (bisect_left a t) 0 := by
    have h1 := @List.findIdx_getElem ℚ (fun v => decide (t ≤ v)) a hposlen
    rw [List.getD_eq_getElem a 0 hposlen]
    simpa [bisect_left] using h1
  rcases Nat.eq_or_lt_of_le hpos with heq | hlt
  · rw [heq] at hpt
    exact hpt
  · exact le_of_lt (lt_of_le_of_lt hpt (sorted_getD_lt a hs _ i hlt hi))

theorem chooseLoop_append (x y : List ℚ) (t : ℚ) (k : ℕ) :
    ∀ (left : Int) (right : ℕ) (sel : List (ℚ × ℚ × ℕ)),
    chooseLoop x y t k left right sel =
      sel ++ chooseLoop x y t k left right [] := by
  induction k with
  | zero => intro left right sel; simp [chooseLoop]
  | succ k ih =>
    intro left right sel
    by_cases h : pickLeftB x t left right
    · simp only [chooseLoop, h, if_true]
      rw [ih (left - 1) right (sel ++ [obsTriple x y left.toNat]),
        ih (left - 1) right ([] ++ [obsTriple x y left.toNat])]
      simp
    · simp only [chooseLoop, h, if_false, Bool.false_eq_true]
      rw [ih left (right + 1) (sel ++ [obsTriple x y right]),
        ih left (right + 1) ([] ++ [obsTriple x y right])]
      simp

theorem bisect_left_midpoint (x : List ℚ) (i : ℕ)
    (hs : x.Pairwise (· < ·)) (hi : i + 1 < x.length) :
    bisect_left x ((x.getD i 0 + x.getD (i + 1) 0) / 2) = i + 1 := by
  set t := (x.getD i 0 + x.getD (i + 1) 0) / 2 with ht
  have hadj : x.getD i 0 < x.getD (i + 1) 0 :=
    sorted_getD_lt x hs i (i + 1) (by omega) hi
  have hit : x.getD i 0 < t := by rw [ht]; linarith
  have hti : t ≤ x.getD (i + 1) 0 := by rw [ht]; linarith
  have h1 : (fun v => decide (t ≤ v)) x[i + 1] = true := by
    rw [← List.getD_eq_getElem x 0 hi]
    simpa using hti
  have h2 : ∀ j (hj : j < i + 1), ¬ (fun v => decide (t ≤ v)) x[j] = true := by
    intro j hj
    have hjlen : j < x.length := by omega
    have : x.getD j 0 < t := by
      rcases Nat.eq_or_lt_of_le (Nat.lt_succ_iff.mp hj) with heq | hlt
      · rw [heq]; exact hit
      · exact lt_trans (sorted_getD_lt x hs j i hlt (by omega)) hit
    rw [← List.getD_eq_getElem x 0 hjlen]
    simpa using not_le_of_lt this
  exact (List.findIdx_eq hi).mpr ⟨h1, fun j hj => by simpa using h2 j hj⟩

/-- C7: when the target sits exactly midway between two adjacent stored
coordinates, the selector's very first pick is the left (smaller-coordinate)
neighbour: the `<=` comparison breaks the tie to the left. -/
theorem tie_prefers_left (x y : List ℚ) (i n : ℕ)
    (hs : x.Pairwise (· < ·)) (hi : i + 1 < x.length) (hn : 1 ≤ n) :
    (chooseLoop x y ((x.getD i 0 + x.getD (i + 1) 0) / 2) n
        ((bisect_left x ((x.getD i 0 + x.getD (i + 1) 0) / 2) : Int) - 1)
        (bisect_left x ((x.getD i 0 + x.getD (i + 1) 0) / 2)) []).head? =
      some (obsTriple x y i) := by
  set t := (x.getD i 0 + x.getD (i + 1) 0) / 2 with ht
  have hpos : bisect_left x t = i + 1 := bisect_left_midpoint x i hs hi
  obtain ⟨k, rfl⟩ : ∃ k, n = k + 1 := ⟨n - 1, by omega⟩
  rw [hpos]
  have hleft : ((i + 1 : ℕ) : Int) - 1 = ((i : ℕ) : Int) := by push_cast; ring
  rw [hleft]
  have hadj : x.getD i 0 < x.getD (i + 1) 0 :=
    sorted_getD_lt x hs i (i + 1) (by omega) hi
  have hpick : pickLeftB x t ((i : ℕ) : Int) (i + 1) = true := by
    unfold pickLeftB
    rw [if_neg (not_lt.mpr (Int.natCast_nonneg i)), if_neg (not_le.mpr hi)]
    have htoNat : ((i : ℕ) : Int).toNat = i := Int.toNat_natCast i
    rw [htoNat]
    have h1 : |x.getD i 0 - t| = t - x.getD i 0 := by
      rw [abs_of_nonpos (by rw [ht]; linarith)]
      ring
    have h2 : |x.getD (i + 1) 0 - t| = x.getD (i + 1) 0 - t :=
      abs_of_nonneg (by rw [ht]; linarith)
    rw [h1, h2]
    simp only [decide_eq_true_eq]
    rw [ht]
    linarith
  simp only [chooseLoop, hpick, if_true]
  rw [chooseLoop_append]
  simp [Int.toNat_natCast]

/-! ### The symmetric-expansion selector: greedy interval characterisation -/

theorem dist_lt_left (x : List ℚ) (t : ℚ) (hs : x.Pairwise (· < ·)) (i j : ℕ)
    (hij : i < j) (hj : j < bisect_left x t) :
    |x.getD j 0 - t| < |x.getD i 0 - t| := by
  have hjlen : j < x.length := lt_of_lt_of_le hj (bisect_left_le_length x t)
  have hjt : x.getD j 0 < t := getD_lt_of_lt_bisect_left x t j hj
  have hxij : x.getD i 0 < x.getD j 0 := sorted_getD_lt x hs i j hij hjlen
  rw [abs_of_neg (by linarith), abs_of_neg (by linarith)]
  linarith

theorem dist_lt_right (x : List ℚ) (t : ℚ) (hs : x.Pairwise (· < ·)) (i j : ℕ)
    (hpos : bisect_left x t ≤ i) (hij : i < j) (hj : j < x.length) :
    |x.getD i 0 - t| < |x.getD j 0 - t| := by
  have hti : t ≤ x.getD i 0 :=
    le_getD_of_bisect_left_le x t i hs hpos (lt_trans hij hj)
  have hxij : x.getD i 0 < x.getD j 0 := sorted_getD_lt x hs i j hij hj
  rw [abs_of_nonneg (by linarith), abs_of_nonneg (by linarith)]
  linarith

theorem chooseLoop_interval (x y : List ℚ) (t : ℚ) (hs : x.Pairwise (· < ·)) :
    ∀ (k L R : ℕ),
    L ≤ bisect_left x t → bisect_left x t ≤ R → R ≤ x.length →
    k + (R - L) ≤ x.length →
    (∀ i, L ≤ i → i < R → ∀ e, e < x.length → e < L ∨ R ≤ e → IdxLt x t i e) →
    ∃ L2 R2, L2 ≤ L ∧ R ≤ R2 ∧ R2 ≤ x.length ∧
      L2 + ((R - L) + k) = R2 ∧ L2 ≤ bisect_left x t ∧
      (∀ i, L2 ≤ i → i < R2 → ∀ e, e < x.length → e < L2 ∨ R2 ≤ e →
        IdxLt x t i e) ∧
      chooseLoop x y t k ((L : Int) - 1) R [] ~
        (List.range' L2 (L - L2)).map (obsTriple x y) ++
        (List.range' R (R2 - R)).map (obsTriple x y) := by
  intro k
  induction k with
  | zero =>
    intro L R hLpos hposR hR hfuel hcert
    refine ⟨L, R, le_rfl, le_rfl, hR, by omega, hLpos, hcert, ?_⟩
    simp [chooseLoop]
  | succ k ih =>
    intro L R hLpos hposR hR hfuel hcert
    by_cases hpick : pickLeftB x t ((L : Int) - 1) R = true
    · -- a left pick: the left cursor is in range, so L ≥ 1
      have hL1 : 1 ≤ L := by
        by_contra h0
        have hL0 : L = 0 := by omega
        subst hL0
        unfold pickLeftB at hpick
        rw [if_pos (by norm_num : ((0 : ℕ) : Int) - 1 < 0)] at hpick
        exact Bool.noConfusion hpick
      have htoNat : (((L : ℕ) : Int) - 1).toNat = L - 1 := by omega
      have hcase : x.length ≤ R ∨
          (R < x.length ∧ |x.getD (L - 1) 0 - t| ≤ |x.getD R 0 - t|) := by
        unfold pickLeftB at hpick
        rw [if_neg (by omega : ¬ ((L : Int) - 1 < 0))] at hpick
        by_cases hRlen : x.length ≤ R
        · exact Or.inl hRlen
        · rw [if_neg hRlen, htoNat] at hpick
          exact Or.inr ⟨by omega, of_decide_eq_true hpick⟩
      have hcert2 : ∀ i, L - 1 ≤ i → i < R → ∀ e, e < x.length →
          e < L - 1 ∨ R ≤ e → IdxLt x t i e := by
        intro i hLi hiR e helen hout
        by_cases hiL : L ≤ i
        · refine hcert i hiL hiR e helen ?_
          rcases hout with h | h
          · exact Or.inl (by omega)
          · exact Or.inr h
        · have hiL1 : i = L - 1 := by omega
          subst hiL1
          rcases hout with he | he
          · exact Or.inl (dist_lt_left x t hs e (L - 1) (by omega) (by omega))
          · rcases hcase with hRlen | ⟨hRlen, hle⟩
            · omega
            · by_cases heR : e = R
              · subst heR
                rcases lt_or_eq_of_le hle with hlt2 | heq2
                · exact Or.inl hlt2
                · exact Or.inr ⟨heq2, by omega⟩
              · have hRe : R < e := by omega
                exact Or.inl (lt_of_le_of_lt hle
                  (dist_lt_right x t hs R e hposR hRe helen))
      obtain ⟨L2, R2, hL2, hR2, hR2len, hsize, hL2pos, hcert3, hperm⟩ :=
        ih (L - 1) R (by omega) hposR hR (by omega) hcert2
      refine ⟨L2, R2, by omega, hR2, hR2len, by omega, hL2pos, hcert3, ?_⟩
      have hcursor : ((L : Int) - 1) - 1 = (((L - 1 : ℕ) : Int)) - 1 := by
        push_cast [hL1]
        ring
      have hstep : chooseLoop x y t (k + 1) ((L : Int) - 1) R [] =
          obsTriple x y (L - 1) ::
            chooseLoop x y t k ((((L - 1 : ℕ) : Int)) - 1) R [] := by
        simp only [chooseLoop, hpick, if_true, List.nil_append]
        rw [chooseLoop_append, htoNat, hcursor]
        rfl
      rw [hstep]
      have hrange : List.range' L2 (L - L2) =
          List.range' L2 ((L - 1) - L2) ++ [L - 1] := by
        rw [show L - L2 = ((L - 1) - L2) + 1 from by omega, List.range'_1_concat,
          show L2 + ((L - 1) - L2) = L - 1 from by omega]
      calc obsTriple x y (L - 1) ::
            chooseLoop x y t k ((((L - 1 : ℕ) : Int)) - 1) R []
          ~ obsTriple x y (L - 1) ::
              ((List.range' L2 ((L - 1) - L2)).map (obsTriple x y) ++
               (List.range' R (R2 - R)).map (obsTriple x y)) := hperm.cons _
        _ ~ (List.range' L2 ((L - 1) - L2)).map (obsTriple x y) ++
              obsTriple x y (L - 1) ::
                (List.range' R (R2 - R)).map (obsTriple x y) :=
            List.perm_middle.symm
        _ = (List.range' L2 (L - L2)).map (obsTriple x y) ++
              (List.range' R (R2 - R)).map (obsTriple x y) := by
            rw [hrange]
            simp
    · -- a right pick: the right cursor is in range, so R < x.length
      have hRlen : R < x.length := by
        rcases Nat.eq_zero_or_pos L with hL0 | hL1
        · omega
        · by_contra hcon
          apply hpick
          unfold pickLeftB
          rw [if_neg (by omega : ¬ ((L : Int) - 1 < 0)), if_pos (not_lt.mp hcon)]
      have hcase : L = 0 ∨
          (1 ≤ L ∧ |x.getD R 0 - t| < |x.getD (L - 1) 0 - t|) := by
        rcases Nat.eq_zero_or_pos L with hL0 | hL1
        · exact Or.inl hL0
        · refine Or.inr ⟨hL1, ?_⟩
          have htoNat : (((L : ℕ) : Int) - 1).toNat = L - 1 := by omega
          unfold pickLeftB at hpick
          rw [if_neg (by omega : ¬ ((L : Int) - 1 < 0)),
            if_neg (not_le.mpr hRlen), htoNat] at hpick
          have h2 : ¬ (|x.getD (L - 1) 0 - t| ≤ |x.getD R 0 - t|) := by
            simpa using hpick
          exact not_le.mp h2
      have hcert2 : ∀ i, L ≤ i → i < R + 1 → ∀ e, e < x.length →
          e < L ∨ R + 1 ≤ e → IdxLt x t i e := by
        intro i hLi hiR e helen hout
        by_cases hiR' : i < R
        · refine hcert i hLi hiR' e helen ?_
          rcases hout with h | h
          · exact Or.inl h
          · exact Or.inr (by omega)
        · have hiR2 : i = R := by omega
          rw [hiR2]
          rcases hout with he | he
          · rcases hcase with hL0 | ⟨hL1, hlt⟩
            · omega
            · have hde : |x.getD (L - 1) 0 - t| ≤ |x.getD e 0 - t| := by
                by_cases heL : e = L - 1
                · subst heL; exact le_rfl
                · exact le_of_lt (dist_lt_left x t hs e (L - 1) (by omega)
                    (by omega))
              exact Or.inl (lt_of_lt_of_le hlt hde)
          · exact Or.inl (dist_lt_right x t hs R e hposR (by omega) helen)
      obtain ⟨L2, R2, hL2, hR2, hR2len, hsize, hL2pos, hcert3, hperm⟩ :=
        ih L (R + 1) hLpos (by omega) (by omega) (by omega) hcert2
      refine ⟨L2, R2, hL2, by omega, hR2len, by omega, hL2pos, hcert3, ?_⟩
      have hstep : chooseLoop x y t (k + 1) ((L : Int) - 1) R [] =
          obsTriple x y R :: chooseLoop x y t k ((L : Int) - 1) (R + 1) [] := by
        simp only [chooseLoop]
        rw [if_neg hpick, chooseLoop_append]
        rfl
      rw [hstep]
      have hrange : List.range' R (R2 - R) =
          R :: List.range' (R + 1) (R2 - (R + 1)) := by
        rw [show R2 - R = (R2 - (R + 1)) + 1 from by omega, List.range'_succ]
      calc obsTriple x y R :: chooseLoop x y t k ((L : Int) - 1) (R + 1) []
          ~ obsTriple x y R ::
              ((List.range' L2 (L - L2)).map (obsTriple x y) ++
               (List.range' (R + 1) (R2 - (R + 1))).map (obsTriple x y)) :=
            hperm.cons _
        _ ~ (List.range' L2 (L - L2)).map (obsTriple x y) ++
              obsTriple x y R ::
                (List.range' (R + 1) (R2 - (R + 1))).map (obsTriple x y) :=
            List.perm_middle.symm
        _ = (List.range' L2 (L - L2)).map (obsTriple x y) ++
              (List.range' R (R2 - R)).map (obsTriple x y) := by
            rw [hrange]
            simp

theorem pairwise_key_lt_of_le {α : Type} (key : α → ℚ) (l : List α)
    (hle : l.Pairwise (fun a b => key a ≤ key b))
    (hnd : (l.map key).Nodup) :
    l.Pairwise (fun a b => key a < key b) := by
  rw [List.pairwise_iff_getElem] at hle ⊢
  intro i j hi hj hij
  refine lt_of_le_of_ne (hle i j hi hj hij) ?_
  intro heq
  have hmi : i < (l.map key).length := by simpa using hi
  have hmj : j < (l.map key).length := by simpa using hj
  have heq2 : (l.map key)[i] = (l.map key)[j] := by
    simp only [List.getElem_map]
    exact heq
  have := (@List.Nodup.getElem_inj_iff _ _ hnd i hmi j hmj).mp heq2
  omega

theorem mergeSort_key_eq_of_perm {α : Type} (key : α → ℚ) (l m : List α)
    (hperm : l ~ m) (hm : m.Pairwise (fun a b => key a < key b)) :
    l.mergeSort (fun a b => decide (key a ≤ key b)) = m := by
  have h1 : l.mergeSort (fun a b => decide (key a ≤ key b)) ~ m :=
    (List.mergeSort_perm l _).trans hperm
  have htrans : ∀ (a b c : α),
      (fun p q : α => decide (key p ≤ key q)) a b = true →
      (fun p q : α => decide (key p ≤ key q)) b c = true →
      (fun p q : α => decide (key p ≤ key q)) a c = true := by
    intro a b c hab hbc
    simp only [decide_eq_true_eq] at hab hbc ⊢
    exact le_trans hab hbc
  have htotal : ∀ (a b : α),
      ((fun p q : α => decide (key p ≤ key q)) a b ||
        (fun p q : α => decide (key p ≤ key q)) b a) = true := by
    intro a b
    simp only [Bool.or_eq_true, decide_eq_true_eq]
    exact le_total _ _
  have hsortedB := List.sorted_mergeSort htrans htotal l
  have hsorted : (l.mergeSort (fun a b => decide (key a ≤ key b))).Pairwise
      (fun a b => key a ≤ key b) := by
    refine hsortedB.imp ?_
    intro a b h
    simpa using h
  have hndm : (m.map key).Nodup := by
    have hpm : (m.map key).Pairwise (· < ·) := by
      rw [List.pairwise_map]
      exact hm
    exact hpm.nodup
  have hnd : ((l.mergeSort (fun a b => decide (key a ≤ key b))).map key).Nodup := by
    rw [List.Perm.nodup_iff (h1.map _)]
    exact hndm
  exact @List.eq_of_perm_of_sorted _ (fun a b => key a < key b)
    ⟨fun _ _ h2 h3 => absurd h3 (not_lt.mpr h2.le)⟩ _ _ h1
    (pairwise_key_lt_of_le key _ hsorted hnd) hm

theorem range'_glue (a b c : ℕ) (hab : a ≤ b) (hbc : b ≤ c) :
    List.range' a (b - a) ++ List.range' b (c - b) = List.range' a (c - a) := by
  have h := List.range'_append_1 a (b - a) (c - b)
  rw [show a + (b - a) = b from by omega] at h
  rw [h, show c - b + (b - a) = c - a from by omega]

theorem pairwise_obsTriple_range' (x y : List ℚ) (hs : x.Pairwise (· < ·))
    (L n : ℕ) (hLn : L + n ≤ x.length) :
    ((List.range' L n).map (obsTriple x y)).Pairwise
      (fun a b => a.1 < b.1) := by
  rw [List.pairwise_map, List.pairwise_iff_getElem]
  intro i j hi hj hij
  rw [List.length_range'] at hi hj
  simp only [List.getElem_range']
  show x.getD (L + 1 * i) 0 < x.getD (L + 1 * j) 0
  exact sorted_getD_lt x hs _ _ (by omega) (by omega)

theorem choose_nearest_points_interval (x y : List ℚ) (t : ℚ) (n : ℕ)
    (hs : x.Pairwise (· < ·)) (hn : n ≤ x.length) :
    ∃ L R, L ≤ bisect_left x t ∧ bisect_left x t ≤ R ∧ R ≤ x.length ∧
      L + n = R ∧
      (∀ i, L ≤ i → i < R → ∀ e, e < x.length → e < L ∨ R ≤ e →
        IdxLt x t i e) ∧
      choose_nearest_points x y t n =
        ((List.range' L n).map (fun i => x.getD i 0),
         (List.range' L n).map (fun i => y.getD i 0),
         List.range' L n) := by
  obtain ⟨L, R, hL, hR, hRlen, hsize, hLpos, hcert, hperm⟩ :=
    chooseLoop_interval x y t hs n (bisect_left x t) (bisect_left x t)
      le_rfl le_rfl (bisect_left_le_length x t) (by omega)
      (by intro i h1 h2 e h3 h4; omega)
  have hLR : L + n = R := by omega
  refine ⟨L, R, hL, hR, hRlen, hLR, hcert, ?_⟩
  have hglue : (List.range' L (bisect_left x t - L)).map (obsTriple x y) ++
      (List.range' (bisect_left x t)
        (R - bisect_left x t)).map (obsTriple x y) =
      (List.range' L n).map (obsTriple x y) := by
    rw [← List.map_append, range'_glue L (bisect_left x t) R hL hR,
      show R - L = n from by omega]
  have hperm2 : chooseLoop x y t n ((bisect_left x t : Int) - 1)
      (bisect_left x t) [] ~ (List.range' L n).map (obsTriple x y) := by
    rw [← hglue]
    exact hperm
  have hsorteq : (chooseLoop x y t n ((bisect_left x t : Int) - 1)
        (bisect_left x t) []).mergeSort (fun a b => decide (a.1 ≤ b.1)) =
      (List.range' L n).map (obsTriple x y) :=
    mergeSort_key_eq_of_perm (fun p => p.1) _ _ hperm2
      (pairwise_obsTriple_range' x y hs L n (by omega))
  simp only [choose_nearest_points]
  rw [hsorteq]
  simp only [List.map_map]
  simp [Function.comp, obsTriple]
  exact List.map_id'' (fun i => rfl) _

theorem mem_range'_iff (L n m : ℕ) :
    m ∈ List.range' L n ↔ L ≤ m ∧ m < L + n := by
  rw [List.mem_range']
  constructor
  · rintro ⟨i, hi, rfl⟩
    omega
  · intro h
    exact ⟨m - L, by omega, by omega⟩

theorem pairwise_getD_range' (x : List ℚ) (hs : x.Pairwise (· < ·)) (L n : ℕ)
    (hLn : L + n ≤ x.length) :
    ((List.range' L n).map (fun i => x.getD i 0)).Pairwise (· < ·) := by
  rw [List.pairwise_map, List.pairwise_iff_getElem]
  intro i j hi hj hij
  rw [List.length_range'] at hi hj
  simp only [List.getElem_range']
  exact sorted_getD_lt x hs _ _ (by omega) (by omega)

/-- C2: for a store with strictly increasing coordinates and any valid point
count `2 ≤ n ≤ K`, the symmetric-expansion selector returns exactly `n`
observations drawn from the store, strictly ascending by coordinate (hence
with no duplicates), and every selected observation is at least as close to
the target as every excluded store entry. -/
theorem choose_nearest_points_spec (x y : List ℚ) (t : ℚ) (n : ℕ)
    (hs : x.Pairwise (· < ·)) (h2 : 2 ≤ n) (hn : n ≤ x.length) :
    (choose_nearest_points x y t n).1.length = n ∧
    (choose_nearest_points x y t n).1.Pairwise (· < ·) ∧
    (choose_nearest_points x y t n).2.2.Nodup ∧
    (choose_nearest_points x y t n).1 =
      (choose_nearest_points x y t n).2.2.map (fun i => x.getD i 0) ∧
    (choose_nearest_points x y t n).2.1 =
      (choose_nearest_points x y t n).2.2.map (fun i => y.getD i 0) ∧
    (∀ i ∈ (choose_nearest_points x y t n).2.2, i < x.length) ∧
    (∀ i ∈ (choose_nearest_points x y t n).2.2, ∀ e, e < x.length →
      e ∉ (choose_nearest_points x y t n).2.2 →
      |x.getD i 0 - t| ≤ |x.getD e 0 - t|) := by
  obtain ⟨L, R, hL, hR, hRlen, hLR, hcert, heq⟩ :=
    choose_nearest_points_interval x y t n hs hn
  rw [heq]
  dsimp only
  refine ⟨?_, ?_, ?_, rfl, rfl, ?_, ?_⟩
  · simp
  · exact pairwise_getD_range' x hs L n (by omega)
  · exact List.nodup_range' L n
  · intro i hi
    rw [mem_range'_iff] at hi
    omega
  · intro i hi e helen he
    rw [mem_range'_iff] at hi
    rw [mem_range'_iff] at he
    have hout : e < L ∨ R ≤ e := by omega
    rcases hcert i hi.1 (by omega) e helen hout with h | h
    · exact h.le
    · exact h.1.le

theorem choose_nearest_points_spec_witness :
    (choose_nearest_points [1, 2, 3] [7, 8, 9] 1 2).1.length = 2 ∧
    (choose_nearest_points [1, 2, 3] [7, 8, 9] 1 2).1.Pairwise (· < ·) ∧
    (choose_nearest_points [1, 2, 3] [7, 8, 9] 1 2).2.2.Nodup ∧
    (choose_nearest_points [1, 2, 3] [7, 8, 9] 1 2).1 =
      (choose_nearest_points [1, 2, 3] [7, 8, 9] 1 2).2.2.map
        (fun i => [(1 : ℚ), 2, 3].getD i 0) ∧
    (choose_nearest_points [1, 2, 3] [7, 8, 9] 1 2).2.1 =
      (choose_nearest_points [1, 2, 3] [7, 8, 9] 1 2).2.2.map
        (fun i => [(7 : ℚ), 8, 9].getD i 0) ∧
    (∀ i ∈ (choose_nearest_points [1, 2, 3] [7, 8, 9] 1 2).2.2,
      i < [(1 : ℚ), 2, 3].length) ∧
    (∀ i ∈ (choose_nearest_points [1, 2, 3] [7, 8, 9] 1 2).2.2, ∀ e,
      e < [(1 : ℚ), 2, 3].length →
      e ∉ (choose_nearest_points [1, 2, 3] [7, 8, 9] 1 2).2.2 →
      |[(1 : ℚ), 2, 3].getD i 0 - 1| ≤ |[(1 : ℚ), 2, 3].getD e 0 - 1|) :=
  choose_nearest_points_spec [1, 2, 3] [7, 8, 9] 1 2
    (by norm_num [List.pairwise_cons]) (by norm_num) (by simp)

/-! ### The fallible evaluators succeed on distinct sorted coordinates -/

theorem mapE_ok_of_forall {α β : Type} (f : α → Except String β) (l : List α)
    (h : ∀ a ∈ l, ∃ b, f a = Except.ok b) : ∃ r, mapE f l = Except.ok r := by
  induction l with
  | nil => exact ⟨[], rfl⟩
  | cons hd tl ih =>
    obtain ⟨b, hb⟩ := h hd (List.mem_cons_self hd tl)
    obtain ⟨r, hr⟩ := ih (fun a ha => h a (List.mem_cons_of_mem hd ha))
    exact ⟨b :: r, by simp [mapE, hb, hr]⟩

theorem foldE_ok_of_forall {α β : Type} (f : β → α → Except String β)
    (l : List α) (h : ∀ a ∈ l, ∀ acc, ∃ b, f acc a = Except.ok b) :
    ∀ acc, ∃ r, foldE f l acc = Except.ok r := by
  induction l with
  | nil => exact fun acc => ⟨acc, rfl⟩
  | cons hd tl ih =>
    intro acc
    obtain ⟨b, hb⟩ := h hd (List.mem_cons_self hd tl) acc
    obtain ⟨r, hr⟩ := ih (fun a ha acc2 => h a (List.mem_cons_of_mem hd ha) acc2) b
    exact ⟨r, by simp [foldE, hb, hr]⟩

theorem newtonColE_ok_of_sorted (x : List ℚ) (hs : x.Pairwise (· < ·))
    (jj : ℕ) (hjj : 1 ≤ jj) (col : List ℚ)
    (hb : ∀ i, i < col.length - 1 → i + jj < x.length) :
    ∃ c, newtonColE x jj col = Except.ok c := by
  apply mapE_ok_of_forall
  intro i hi
  rw [List.mem_range] at hi
  have hlt : x.getD i 0 < x.getD (i + jj) 0 :=
    sorted_getD_lt x hs i (i + jj) (by omega) (hb i hi)
  have hne : x.getD (i + jj) 0 - x.getD i 0 ≠ 0 :=
    sub_ne_zero.mpr (ne_of_gt hlt)
  refine ⟨(col.getD (i + 1) 0 - col.getD i 0) /
    (x.getD (i + jj) 0 - x.getD i 0), ?_⟩
  show (if x.getD (i + jj) 0 - x.getD i 0 = 0 then
      (Except.error "float division by zero" : Except String ℚ)
    else Except.ok ((col.getD (i + 1) 0 - col.getD i 0) /
      (x.getD (i + jj) 0 - x.getD i 0))) = _
  rw [if_neg hne]

theorem newton_foldE_ok_all (x : List ℚ) (hs : x.Pairwise (· < ·)) (k : ℕ) :
    ∀ (s : ℕ) (acc col : List ℚ), col.length = x.length - s →
    ∃ st, foldE (fun (st : List ℚ × List ℚ) j =>
        match newtonColE x (j + 1) st.2 with
        | Except.error e => Except.error e
        | Except.ok col => Except.ok (st.1 ++ [col.getD 0 0], col))
      (List.range' s k) (acc, col) = Except.ok st := by
  induction k with
  | zero =>
    intro s acc col hcol
    exact ⟨(acc, col), rfl⟩
  | succ k ih =>
    intro s acc col hcol
    obtain ⟨c, hc⟩ := newtonColE_ok_of_sorted x hs (s + 1) (by omega) col
      (by intro i hi; omega)
    have hclen : c.length = x.length - (s + 1) := by
      have := newtonColE_ok_length x (s + 1) col c hc
      omega
    obtain ⟨st, hst⟩ := ih (s + 1) (acc ++ [c.getD 0 0]) c hclen
    refine ⟨st, ?_⟩
    rw [List.range'_succ]
    simp only [foldE, hc]
    exact hst

theorem newtonE_ok_of_sorted (x y : List ℚ) (t : ℚ)
    (hs : x.Pairwise (· < ·)) (hlen : y.length = x.length) :
    ∃ v, divided_difference_newtonE x y t = Except.ok v := by
  obtain ⟨st, hst⟩ :=
    newton_foldE_ok_all x hs (x.length - 1) 0 [y.getD 0 0] y (by omega)
  rw [← List.range_eq_range'] at hst
  unfold divided_difference_newtonE
  dsimp only []
  rw [hst]
  exact ⟨_, rfl⟩

theorem lagrangeE_ok_of_sorted (x y : List ℚ) (t : ℚ)
    (hs : x.Pairwise (· < ·)) :
    ∃ v, lagrange_interpolationE x y t = Except.ok v := by
  unfold lagrange_interpolationE
  dsimp only []
  refine foldE_ok_of_forall _ _ ?_ 0
  intro i hi acc
  rw [List.mem_range] at hi
  have hinner : ∃ Li, foldE (fun Li j =>
      if i = j then Except.ok Li
      else
        let denom := x.getD i 0 - x.getD j 0
        if denom = 0 then Except.error "float division by zero"
        else Except.ok (Li * ((t - x.getD j 0) / denom)))
      (List.range x.length) 1 = Except.ok Li := by
    refine foldE_ok_of_forall _ _ ?_ 1
    intro j hj acc2
    rw [List.mem_range] at hj
    by_cases hij : i = j
    · exact ⟨acc2, by simp [hij]⟩
    · have hne : x.getD i 0 - x.getD j 0 ≠ 0 := by
        rcases Nat.lt_or_ge i j with h | h
        · exact sub_ne_zero.mpr (ne_of_lt (sorted_getD_lt x hs i j h hj))
        · have hji : j < i := by omega
          exact sub_ne_zero.mpr (ne_of_gt (sorted_getD_lt x hs j i hji hi))
      refine ⟨acc2 * ((t - x.getD j 0) / (x.getD i 0 - x.getD j 0)), ?_⟩
      show (if i = j then Except.ok acc2 else
        if x.getD i 0 - x.getD j 0 = 0 then
          (Except.error "float division by zero" : Except String ℚ)
        else Except.ok (acc2 * ((t - x.getD j 0) /
          (x.getD i 0 - x.getD j 0)))) = _
      rw [if_neg hij, if_neg hne]
  obtain ⟨Li, hLi⟩ := hinner
  exact ⟨_, by rw [hLi]⟩

/-- C10: a target strictly beyond every populated coordinate raises no
error anywhere in the engine: the coordinate mapper succeeds on any date on
or after the base Monday (no upper bound is checked), the selector returns
the `n` largest-coordinate observations, and both evaluators return an
estimate for that selection — silent extrapolation. -/
theorem beyond_last_coordinate_extrapolates (x y : List ℚ) (t : ℚ) (n : ℕ)
    (d : Int) (hs : x.Pairwise (· < ·)) (hlen : y.length = x.length)
    (hn : n ≤ x.length) (hd : BASE_WEEK1_MONDAY ≤ d)
    (ht : ∀ i, i < x.length → x.getD i 0 < t) :
    (∃ q, date_to_fractional_week d = Except.ok q) ∧
    choose_nearest_points x y t n =
      ((List.range' (x.length - n) n).map (fun i => x.getD i 0),
       (List.range' (x.length - n) n).map (fun i => y.getD i 0),
       List.range' (x.length - n) n) ∧
    (∃ v, divided_difference_newtonE
        ((List.range' (x.length - n) n).map (fun i => x.getD i 0))
        ((List.range' (x.length - n) n).map (fun i => y.getD i 0)) t =
      Except.ok v) ∧
    (∃ v, lagrange_interpolationE
        ((List.range' (x.length - n) n).map (fun i => x.getD i 0))
        ((List.range' (x.length - n) n).map (fun i => y.getD i 0)) t =
      Except.ok v) := by
  have hpos : bisect_left x t = x.length := by
    apply List.findIdx_eq_length_of_false
    intro v hv
    obtain ⟨i, hi, rfl⟩ := List.mem_iff_getElem.mp hv
    simp only [decide_eq_false_iff_not, not_le]
    have h2 := ht i hi
    rwa [List.getD_eq_getElem x 0 hi] at h2
  obtain ⟨L, R, hL, hR, hRlen, hLR, hcert, heq⟩ :=
    choose_nearest_points_interval x y t n hs hn
  have hReq : R = x.length := by omega
  have hLeq : L = x.length - n := by omega
  rw [hLeq] at heq
  have hsel_sorted : ((List.range' (x.length - n) n).map
      (fun i => x.getD i 0)).Pairwise (· < ·) :=
    pairwise_getD_range' x hs (x.length - n) n (by omega)
  have hsel_len : ((List.range' (x.length - n) n).map
        (fun i => y.getD i 0)).length =
      ((List.range' (x.length - n) n).map (fun i => x.getD i 0)).length := by
    simp
  refine ⟨⟨1 + ((d - BASE_WEEK1_MONDAY : Int) : ℚ) / 7,
      date_to_fractional_week_closed d hd⟩, heq, ?_, ?_⟩
  · exact newtonE_ok_of_sorted _ _ t hsel_sorted hsel_len
  · exact lagrangeE_ok_of_sorted _ _ t hsel_sorted

theorem beyond_last_coordinate_extrapolates_witness :
    (∃ q, date_to_fractional_week 739000 = Except.ok q) ∧
    choose_nearest_points [1, 2, 3] [7, 8, 9] 10 2 =
      ((List.range' 1 2).map (fun i => [(1 : ℚ), 2, 3].getD i 0),
       (List.range' 1 2).map (fun i => [(7 : ℚ), 8, 9].getD i 0),
       List.range' 1 2) ∧
    (∃ v, divided_difference_newtonE
        ((List.range' 1 2).map (fun i => [(1 : ℚ), 2, 3].getD i 0))
        ((List.range' 1 2).map (fun i => [(7 : ℚ), 8, 9].getD i 0)) 10 =
      Except.ok v) ∧
    (∃ v, lagrange_interpolationE
        ((List.range' 1 2).map (fun i => [(1 : ℚ), 2, 3].getD i 0))
        ((List.range' 1 2).map (fun i => [(7 : ℚ), 8, 9].getD i 0)) 10 =
      Except.ok v) := by
  have h := beyond_last_coordinate_extrapolates [1, 2, 3] [7, 8, 9] 10 2
    739000 (by norm_num [List.pairwise_cons]) (by simp) (by simp)
    (by norm_num [BASE_WEEK1_MONDAY])
    (by
      intro i hi
      simp only [List.length_cons, List.length_nil] at hi
      interval_cases i <;> norm_num)
  exact h

/-! ### Point-count validation in the two web shells -/

/-- C4 (amended, Source-Code shell): every requested count outside
`[2, MAX_POINTS]` is rejected up front, before any other computation. -/
theorem sc_invalid_count_rejected (d : Int) (n : ℕ)
    (hn : n < 2 ∨ MAX_POINTS < n) :
    sc_index_query d n =
      Except.error "Data points must be between 2 and 119." := by
  unfold sc_index_query
  rw [if_pos hn]

theorem sc_invalid_count_rejected_witness :
    sc_index_query BASE_WEEK1_MONDAY 1 =
        Except.error "Data points must be between 2 and 119." ∧
      sc_index_query BASE_WEEK1_MONDAY 120 =
        Except.error "Data points must be between 2 and 119." :=
  ⟨sc_invalid_count_rejected BASE_WEEK1_MONDAY 1 (Or.inl (by norm_num)),
   sc_invalid_count_rejected BASE_WEEK1_MONDAY 120
     (Or.inr (by norm_num [MAX_POINTS]))⟩

theorem weekly_prices_length : weekly_prices.length = 119 := rfl

theorem build_xy_fst_length (prices : List ℚ) :
    (build_xy prices).1.length = prices.length := by
  simp only [build_xy, List.length_map, List.length_range]

theorem build_xy_fst_getD (prices : List ℚ) (i : ℕ) (hi : i < prices.length) :
    (build_xy prices).1.getD i 0 = (i : ℚ) + 1 := by
  have hi' : i < (build_xy prices).1.length := by rwa [build_xy_fst_length]
  rw [List.getD_eq_getElem _ 0 hi']
  simp only [build_xy, List.getElem_map, List.getElem_range]
  push_cast
  ring

/-- C4 counterexample: the `site` shell never validates the requested point
count: a query with `n = 1` (outside `[2, K]`) raises nothing and returns
the single-point estimate `7.29` from both evaluators. -/
theorem site_accepts_single_point :
    site_index_query BASE_WEEK1_MONDAY 1 = Except.ok (729 / 100, 729 / 100) := by
  have hdate : date_to_fractional_week BASE_WEEK1_MONDAY = Except.ok 1 := by
    rw [date_to_fractional_week_closed BASE_WEEK1_MONDAY le_rfl]
    norm_num
  have hlenxs : (build_xy weekly_prices).1.length = 119 := by
    rw [build_xy_fst_length, weekly_prices_length]
  have hxs0 : (build_xy weekly_prices).1.getD 0 0 = 1 := by
    rw [build_xy_fst_getD weekly_prices 0 (by rw [weekly_prices_length]; omega)]
    norm_num
  have hpos : bisect_left (build_xy weekly_prices).1 1 = 0 := by
    have h0 : 0 < (build_xy weekly_prices).1.length := by omega
    refine (List.findIdx_eq h0).mpr ⟨?_, ?_⟩
    · rw [← List.getD_eq_getElem _ 0 h0, hxs0]
      simp
    · intro j hj
      omega
  have htake1 : (build_xy weekly_prices).1.take 1 = [1] := by
    cases hxs : (build_xy weekly_prices).1 with
    | nil => rw [hxs] at hlenxs; simp at hlenxs
    | cons a l =>
      have ha : a = 1 := by rw [hxs] at hxs0; simpa using hxs0
      rw [ha]
      simp
  have htakep : weekly_prices.take 1 = [729 / 100] := by
    norm_num [weekly_prices]
  have hsel : nearest_points (build_xy weekly_prices).1 weekly_prices 1 1
      = ([1], [729 / 100]) := by
    simp only [nearest_points]
    rw [hpos, hlenxs]
    norm_num
    rw [List.zip_eq_zipWith, List.take_zipWith, ← List.zip_eq_zipWith,
      htake1, htakep]
    simp [List.mergeSort_singleton]
  have hnewton : divided_difference_newtonE [1] [729 / 100] 1
      = Except.ok (729 / 100, [729 / 100]) := by
    simp [divided_difference_newtonE, foldE]
  have hlagrange : lagrange_interpolationE [1] [729 / 100] 1
      = Except.ok (729 / 100) := by
    simp [lagrange_interpolationE, foldE]
  simp only [site_index_query, hdate]
  have hsnd : (build_xy weekly_prices).2 = weekly_prices := rfl
  rw [hsnd, hsel]
  simp only [hnewton, hlagrange]

theorem tie_prefers_left_witness :
    (chooseLoop [1, 2, 3, 4, 5] [10, 20, 30, 50, 40]
        (([(1 : ℚ), 2, 3, 4, 5].getD 1 0 + [(1 : ℚ), 2, 3, 4, 5].getD 2 0) / 2) 2
        ((bisect_left [1, 2, 3, 4, 5]
            (([(1 : ℚ), 2, 3, 4, 5].getD 1 0 + [(1 : ℚ), 2, 3, 4, 5].getD 2 0) / 2) : Int) - 1)
        (bisect_left [1, 2, 3, 4, 5]
          (([(1 : ℚ), 2, 3, 4, 5].getD 1 0 + [(1 : ℚ), 2, 3, 4, 5].getD 2 0) / 2)) []).head? =
      some (obsTriple [1, 2, 3, 4, 5] [10, 20, 30, 50, 40] 1) :=
  tie_prefers_left [1, 2, 3, 4, 5] [10, 20, 30, 50, 40] 1 2
    (by norm_num [List.pairwise_cons]) (by simp) (by norm_num)

/-! ### The window-then-sort selector agrees with the symmetric expansion -/

theorem PairLt_asymm (t : ℚ) (p q : ℚ × ℚ) (h1 : PairLt t p q)
    (h2 : PairLt t q p) : False := by
  unfold PairLt at h1 h2
  rcases h1 with h1 | ⟨e1, l1⟩ <;> rcases h2 with h2 | ⟨e2, l2⟩ <;> linarith

theorem PairLt_trans (t : ℚ) (p q r : ℚ × ℚ) (h1 : PairLt t p q)
    (h2 : PairLt t q r) : PairLt t p r := by
  unfold PairLt at h1 h2 ⊢
  rcases h1 with h1 | ⟨e1, l1⟩ <;> rcases h2 with h2 | ⟨e2, l2⟩
  · exact Or.inl (lt_trans h1 h2)
  · exact Or.inl (e2 ▸ h1)
  · exact Or.inl (e1 ▸ h2)
  · exact Or.inr ⟨e1.trans e2, lt_trans l1 l2⟩

theorem PairLt_total (t : ℚ) (p q : ℚ × ℚ) (hne : p.1 ≠ q.1) :
    PairLt t p q ∨ PairLt t q p := by
  unfold PairLt
  rcases lt_trichotomy (|p.1 - t|) (|q.1 - t|) with h | h | h
  · exact Or.inl (Or.inl h)
  · rcases lt_or_gt_of_ne hne with h2 | h2
    · exact Or.inl (Or.inr ⟨h, h2⟩)
    · exact Or.inr (Or.inr ⟨h.symm, h2⟩)
  · exact Or.inr (Or.inl h)

theorem pair_sublist_of_pairwise_lt {α : Type} (R : α → α → Prop)
    (hasymm : ∀ a b, R a b → R b a → False) (a b : α) (hR : R a b) :
    ∀ l : List α, l.Pairwise R → a ∈ l → b ∈ l → [a, b] <+ l := by
  intro l
  induction l with
  | nil => intro _ ha _; cases ha
  | cons hd tl ih =>
    intro hp ha hb
    rcases List.mem_cons.mp ha with rfl | ha2
    · have hb2 : b ∈ tl := by
        rcases List.mem_cons.mp hb with rfl | hb2
        · exact absurd hR (fun h => hasymm _ _ h h)
        · exact hb2
      exact (List.singleton_sublist.mpr hb2).cons₂ a
    · have hb2 : b ∈ tl := by
        rcases List.mem_cons.mp hb with rfl | hb2
        · have hba := (List.pairwise_cons.mp hp).1 a ha2
          exact absurd hR (fun h => hasymm _ _ h hba)
        · exact hb2
      exact (ih (List.pairwise_cons.mp hp).2 ha2 hb2).cons hd

theorem dist_le_trans (t : ℚ) : ∀ (a b c : ℚ × ℚ),
    (fun p q : ℚ × ℚ => decide (|p.1 - t| ≤ |q.1 - t|)) a b = true →
    (fun p q : ℚ × ℚ => decide (|p.1 - t| ≤ |q.1 - t|)) b c = true →
    (fun p q : ℚ × ℚ => decide (|p.1 - t| ≤ |q.1 - t|)) a c = true := by
  intro a b c hab hbc
  simp only [decide_eq_true_eq] at hab hbc ⊢
  exact le_trans hab hbc

theorem dist_le_total (t : ℚ) : ∀ (a b : ℚ × ℚ),
    ((fun p q : ℚ × ℚ => decide (|p.1 - t| ≤ |q.1 - t|)) a b ||
      (fun p q : ℚ × ℚ => decide (|p.1 - t| ≤ |q.1 - t|)) b a) = true := by
  intro a b
  simp only [Bool.or_eq_true, decide_eq_true_eq]
  exact le_total _ _

theorem sorted_dist_mergeSort (t : ℚ) (pairs : List (ℚ × ℚ)) :
    (pairs.mergeSort (fun p q => decide (|p.1 - t| ≤ |q.1 - t|))).Pairwise
      (fun p q => |p.1 - t| ≤ |q.1 - t|) := by
  refine (List.sorted_mergeSort (dist_le_trans t) (dist_le_total t)
    pairs).imp ?_
  intro a b h
  simpa using h

theorem nodup_of_pairwise_fst_lt (pairs : List (ℚ × ℚ))
    (hp : pairs.Pairwise (fun p q => p.1 < q.1)) : pairs.Nodup :=
  hp.imp (fun h => by
    intro heq
    rw [heq] at h
    exact lt_irrefl _ h)

theorem mergeSort_take_drop_PairLt (t : ℚ) (pairs : List (ℚ × ℚ)) (n : ℕ)
    (hp : pairs.Pairwise (fun p q => p.1 < q.1)) (p q : ℚ × ℚ)
    (hptake : p ∈ (pairs.mergeSort
      (fun p q => decide (|p.1 - t| ≤ |q.1 - t|))).take n)
    (hqdrop : q ∈ (pairs.mergeSort
      (fun p q => decide (|p.1 - t| ≤ |q.1 - t|))).drop n) :
    PairLt t p q := by
  have hdist : |p.1 - t| ≤ |q.1 - t| :=
    (sorted_dist_mergeSort t pairs).rel_of_mem_take_of_mem_drop hptake hqdrop
  have hpairsnd : pairs.Nodup := nodup_of_pairwise_fst_lt pairs hp
  have hsortnd : (pairs.mergeSort
      (fun p q => decide (|p.1 - t| ≤ |q.1 - t|))).Nodup :=
    ((List.mergeSort_perm pairs _).nodup_iff).mpr hpairsnd
  have hdisj : ((pairs.mergeSort
        (fun p q => decide (|p.1 - t| ≤ |q.1 - t|))).take n).Disjoint
      ((pairs.mergeSort (fun p q => decide (|p.1 - t| ≤ |q.1 - t|))).drop n) := by
    have h2 := hsortnd
    rw [← List.take_append_drop n (pairs.mergeSort
      (fun p q => decide (|p.1 - t| ≤ |q.1 - t|)))] at h2
    exact (List.nodup_append.mp h2).2.2
  have hpq : p ≠ q := fun heq => hdisj hptake (heq ▸ hqdrop)
  have hpmem : p ∈ pairs :=
    List.mem_mergeSort.mp (List.mem_of_mem_take hptake)
  have hqmem : q ∈ pairs :=
    List.mem_mergeSort.mp (List.mem_of_mem_drop hqdrop)
  have hfst : p.1 ≠ q.1 := by
    have hsym : Symmetric (fun p q : ℚ × ℚ => p.1 ≠ q.1) :=
      fun a b h => h.symm
    exact List.Pairwise.forall hsym (hp.imp (fun h => ne_of_lt h))
      hpmem hqmem hpq
  rcases lt_or_eq_of_le hdist with hlt | heq2
  · exact Or.inl hlt
  · refine Or.inr ⟨heq2, ?_⟩
    rcases lt_or_gt_of_ne hfst with h | h
    · exact h
    · exfalso
      have hsub : [q, p] <+ pairs :=
        pair_sublist_of_pairwise_lt (fun p q : ℚ × ℚ => p.1 < q.1)
          (fun a b h1 h2 => absurd h2 (not_lt.mpr h1.le)) q p h pairs hp
          hqmem hpmem
      have hleB : (fun p q : ℚ × ℚ => decide (|p.1 - t| ≤ |q.1 - t|)) q p
          = true := by
        simp only [decide_eq_true_eq]
        exact le_of_eq heq2.symm
      have hsub2 : [q, p] <+ pairs.mergeSort
          (fun p q => decide (|p.1 - t| ≤ |q.1 - t|)) :=
        List.pair_sublist_mergeSort (dist_le_trans t) (dist_le_total t)
          hleB hsub
      rw [← List.take_append_drop n (pairs.mergeSort
        (fun p q => decide (|p.1 - t| ≤ |q.1 - t|)))] at hsub2
      rcases List.sublist_append_iff.mp hsub2 with ⟨c1, c2, hc, h1, h2⟩
      rcases c1 with _ | ⟨a1, _ | ⟨a2, c1''⟩⟩
      · rw [List.nil_append] at hc
        rw [← hc] at h2
        exact hdisj hptake (h2.subset (by simp))
      · have hc2 : c2 = [p] ∧ a1 = q := by
          rw [List.cons_append, List.nil_append] at hc
          have := List.cons.inj hc
          exact ⟨this.2.symm, this.1.symm⟩
        rw [hc2.1] at h2
        exact hdisj hptake (h2.subset (by simp))
      · have hc3 : a1 = q ∧ a2 = p ∧ c1'' ++ c2 = [] := by
          rw [List.cons_append, List.cons_append] at hc
          have h4 := List.cons.inj hc
          have h5 := List.cons.inj h4.2
          exact ⟨h4.1.symm, h5.1.symm, h5.2.symm⟩
        rw [hc3.1] at h1
        exact hdisj (h1.subset (by simp)) hqdrop

theorem pairwise_obsPair_range' (x y : List ℚ) (hs : x.Pairwise (· < ·))
    (L n : ℕ) (hLn : L + n ≤ x.length) :
    ((List.range' L n).map (obsPair x y)).Pairwise (fun p q => p.1 < q.1) := by
  rw [List.pairwise_map, List.pairwise_iff_getElem]
  intro i j hi hj hij
  rw [List.length_range'] at hi hj
  simp only [List.getElem_range']
  show x.getD (L + 1 * i) 0 < x.getD (L + 1 * j) 0
  exact sorted_getD_lt x hs _ _ (by omega) (by omega)

theorem window_pairs_eq (x y : List ℚ) (hlen : y.length = x.length)
    (lo m : ℕ) (hm : lo + m ≤ x.length) :
    ((x.zip y).drop lo).take m = (List.range' lo m).map (obsPair x y) := by
  have hzlen : (x.zip y).length = x.length := by
    rw [List.length_zip, hlen, min_self]
  apply List.ext_getElem
  · rw [List.length_take, List.length_drop, hzlen, List.length_map,
      List.length_range']
    omega
  · intro i hi1 hi2
    rw [List.length_take, List.length_drop, hzlen] at hi1
    rw [List.getElem_take, List.getElem_drop, List.getElem_zip,
      List.getElem_map, List.getElem_range']
    unfold obsPair
    rw [List.getD_eq_getElem x 0 (by omega), List.getD_eq_getElem y 0 (by omega)]
    simp only [one_mul]

theorem taken_PairLt_of_better_list (t : ℚ) (pairs : List (ℚ × ℚ)) (n : ℕ)
    (hp : pairs.Pairwise (fun p q => p.1 < q.1)) (hlen : n ≤ pairs.length)
    (p : ℚ × ℚ)
    (hptake : p ∈ (pairs.mergeSort
      (fun p q => decide (|p.1 - t| ≤ |q.1 - t|))).take n)
    (q : ℚ × ℚ) (hqfst : ∀ r ∈ pairs, r.1 ≠ q.1)
    (W : List (ℚ × ℚ)) (hWnd : W.Nodup) (hWlen : W.length = n)
    (hW : ∀ w ∈ W, w ∈ pairs ∧ PairLt t w q) :
    PairLt t p q := by
  by_contra hnot
  have hpmem : p ∈ pairs := List.mem_mergeSort.mp (List.mem_of_mem_take hptake)
  have hfst : p.1 ≠ q.1 := hqfst p hpmem
  have hqp : PairLt t q p := (PairLt_total t p q hfst).resolve_left hnot
  have hWtaken : ∀ w ∈ W, w ∈ (pairs.mergeSort
      (fun p q => decide (|p.1 - t| ≤ |q.1 - t|))).take n := by
    intro w hw
    obtain ⟨hwp, hwq⟩ := hW w hw
    have hwmem : w ∈ pairs.mergeSort
        (fun p q => decide (|p.1 - t| ≤ |q.1 - t|)) :=
      List.mem_mergeSort.mpr hwp
    rcases List.mem_append.mp ((List.take_append_drop n
        (pairs.mergeSort (fun p q => decide (|p.1 - t| ≤ |q.1 - t|)))).symm
        ▸ hwmem) with h | h
    · exact h
    · exfalso
      have h1 : PairLt t p w :=
        mergeSort_take_drop_PairLt t pairs n hp p w hptake h
      have h2 : PairLt t w p := PairLt_trans t w q p hwq hqp
      exact PairLt_asymm t p w h1 h2
  have hpW : p ∉ W := by
    intro hpw
    exact hnot (hW p hpw).2
  have htakennd : ((pairs.mergeSort
      (fun p q => decide (|p.1 - t| ≤ |q.1 - t|))).take n).Nodup :=
    List.Nodup.sublist (List.take_sublist n _)
      (((List.mergeSort_perm pairs _).nodup_iff).mpr
        (nodup_of_pairwise_fst_lt pairs hp))
  have hsub : insert p W.toFinset ⊆ ((pairs.mergeSort
      (fun p q => decide (|p.1 - t| ≤ |q.1 - t|))).take n).toFinset := by
    intro a ha
    rcases Finset.mem_insert.mp ha with rfl | haW
    · exact List.mem_toFinset.mpr hptake
    · exact List.mem_toFinset.mpr (hWtaken a (List.mem_toFinset.mp haW))
  have hcard1 : (insert p W.toFinset).card = n + 1 := by
    rw [Finset.card_insert_of_not_mem (fun h => hpW (List.mem_toFinset.mp h)),
      List.toFinset_card_of_nodup hWnd, hWlen]
  have hcard2 : (((pairs.mergeSort
      (fun p q => decide (|p.1 - t| ≤ |q.1 - t|))).take n).toFinset).card
      ≤ n := by
    rw [List.toFinset_card_of_nodup htakennd, List.length_take]
    omega
  have := Finset.card_le_card hsub
  omega

/-- C8: the window-then-sort selector of the web shells computes exactly the
same selection as the symmetric-expansion selector of the CLI, for every
target (interior or at the edges) and every point count up to the store
size.  The stable distance sort realises the same left-preferring tie-break,
and the `2n`-wide window always contains the greedy interval. -/
theorem nearest_points_eq_choose_nearest_points (x y : List ℚ) (t : ℚ)
    (n : ℕ) (hs : x.Pairwise (· < ·)) (hlen : y.length = x.length)
    (hn : n ≤ x.length) :
    nearest_points x y t n =
      ((choose_nearest_points x y t n).1,
       (choose_nearest_points x y t n).2.1) := by
  obtain ⟨L, R, hL, hR, hRlen, hLR, hcert, heq⟩ :=
    choose_nearest_points_interval x y t n hs hn
  have hpos_len : bisect_left x t ≤ x.length := bisect_left_le_length x t
  set pos := bisect_left x t with hpos_def
  set lo := pos - n with hlo_def
  set hi := min x.length (pos + n) with hhi_def
  have hfacts : lo ≤ pos ∧ pos ≤ hi ∧ hi ≤ x.length ∧ n ≤ hi - lo ∧
      lo + (hi - lo) ≤ x.length := by
    rcases le_total x.length (pos + n) with h | h
    · have hhi : hi = x.length := min_eq_left h
      omega
    · have hhi : hi = pos + n := min_eq_right h
      omega
  have hwin : ((x.zip y).drop lo).take (hi - lo) =
      (List.range' lo (hi - lo)).map (obsPair x y) :=
    window_pairs_eq x y hlen lo (hi - lo) (by omega)
  set pairs := (List.range' lo (hi - lo)).map (obsPair x y) with hpairs_def
  have hppw : pairs.Pairwise (fun p q => p.1 < q.1) :=
    pairwise_obsPair_range' x y hs lo (hi - lo) (by omega)
  set sortedW := pairs.mergeSort
    (fun p q => decide (|p.1 - t| ≤ |q.1 - t|)) with hsortedW_def
  set takenW := sortedW.take n with htakenW_def
  have hmem_pairs : ∀ r, r ∈ pairs ↔
      ∃ i, (lo ≤ i ∧ i < hi) ∧ r = obsPair x y i := by
    intro r
    rw [hpairs_def, List.mem_map]
    constructor
    · rintro ⟨i, hi2, rfl⟩
      rw [mem_range'_iff] at hi2
      exact ⟨i, ⟨hi2.1, by omega⟩, rfl⟩
    · rintro ⟨i, hi2, rfl⟩
      exact ⟨i, (mem_range'_iff _ _ _).mpr ⟨hi2.1, by omega⟩, rfl⟩
  have hcertW : ∀ p ∈ takenW, ∀ e, e < x.length →
      obsPair x y e ∉ takenW → PairLt t p (obsPair x y e) := by
    intro p hp2 e helen hemem
    by_cases hewin : lo ≤ e ∧ e < hi
    · have hein : obsPair x y e ∈ sortedW :=
        List.mem_mergeSort.mpr ((hmem_pairs _).mpr ⟨e, hewin, rfl⟩)
      rcases List.mem_append.mp
          ((List.take_append_drop n sortedW).symm ▸ hein) with h | h
      · exact absurd h hemem
      · exact mergeSort_take_drop_PairLt t pairs n hppw p _ hp2 h
    · have hqfst : ∀ r ∈ pairs, r.1 ≠ (obsPair x y e).1 := by
        intro r hr
        obtain ⟨i, hi2, rfl⟩ := (hmem_pairs r).mp hr
        have hie : i ≠ e := by omega
        show x.getD i 0 ≠ x.getD e 0
        rcases Nat.lt_or_ge i e with h | h
        · exact ne_of_lt (sorted_getD_lt x hs i e h helen)
        · have h2 : e < i := by omega
          exact ne_of_gt (sorted_getD_lt x hs e i h2 (by omega))
      have hplen : n ≤ pairs.length := by
        rw [hpairs_def, List.length_map, List.length_range']
        omega
      rcases Nat.lt_or_ge e lo with helo | hehi
      · refine taken_PairLt_of_better_list t pairs n hppw hplen p hp2 _
          hqfst ((List.range' lo n).map (obsPair x y))
          (nodup_of_pairwise_fst_lt _
            (pairwise_obsPair_range' x y hs lo n (by omega))) (by simp) ?_
        intro w hw
        obtain ⟨i, hi2, rfl⟩ := List.mem_map.mp hw
        rw [mem_range'_iff] at hi2
        refine ⟨(hmem_pairs _).mpr ⟨i, ⟨hi2.1, by omega⟩, rfl⟩, ?_⟩
        exact Or.inl (dist_lt_left x t hs e i (by omega) (by omega))
      · have hhieq : hi = pos + n := by
          rcases le_total x.length (pos + n) with h | h
          · have hhi2 : hi = x.length := min_eq_left h
            omega
          · exact min_eq_right h
        refine taken_PairLt_of_better_list t pairs n hppw hplen p hp2 _
          hqfst ((List.range' pos n).map (obsPair x y))
          (nodup_of_pairwise_fst_lt _
            (pairwise_obsPair_range' x y hs pos n (by omega))) (by simp) ?_
        intro w hw
        obtain ⟨i, hi2, rfl⟩ := List.mem_map.mp hw
        rw [mem_range'_iff] at hi2
        refine ⟨(hmem_pairs _).mpr ⟨i, ⟨by omega, by omega⟩, rfl⟩, ?_⟩
        exact Or.inl (dist_lt_right x t hs i e (by omega) (by omega) helen)
  set G := (List.range' L n).map (obsPair x y) with hG_def
  have hGpw : G.Pairwise (fun p q => p.1 < q.1) :=
    pairwise_obsPair_range' x y hs L n (by omega)
  have hGnd : G.Nodup := nodup_of_pairwise_fst_lt _ hGpw
  have hcertG : ∀ p ∈ G, ∀ e, e < x.length → obsPair x y e ∉ G →
      PairLt t p (obsPair x y e) := by
    intro p hp2 e helen hemem
    obtain ⟨i, hi2, rfl⟩ := List.mem_map.mp hp2
    rw [mem_range'_iff] at hi2
    have heI : ¬ (L ≤ e ∧ e < L + n) := by
      intro hin
      exact hemem (List.mem_map.mpr ⟨e, (mem_range'_iff _ _ _).mpr hin, rfl⟩)
    have hout : e < L ∨ R ≤ e := by omega
    rcases hcert i hi2.1 (by omega) e helen hout with h | h
    · exact Or.inl h
    · exact Or.inr ⟨h.1, sorted_getD_lt x hs i e h.2 helen⟩
  have hsortnd : sortedW.Nodup :=
    ((List.mergeSort_perm pairs _).nodup_iff).mpr
      (nodup_of_pairwise_fst_lt pairs hppw)
  have htknd : takenW.Nodup :=
    List.Nodup.sublist (List.take_sublist n sortedW) hsortnd
  have htklen : takenW.length = n := by
    rw [htakenW_def, List.length_take, hsortedW_def, List.length_mergeSort,
      hpairs_def, List.length_map, List.length_range']
    omega
  have htkmem : ∀ p ∈ takenW, p ∈ pairs :=
    fun p hp2 => List.mem_mergeSort.mp (List.mem_of_mem_take hp2)
  have hGset : takenW.toFinset = G.toFinset := by
    by_contra hne
    have hcard : takenW.toFinset.card = G.toFinset.card := by
      rw [List.toFinset_card_of_nodup htknd, htklen,
        List.toFinset_card_of_nodup hGnd, hG_def, List.length_map,
        List.length_range']
    have hdne : (takenW.toFinset \ G.toFinset).Nonempty := by
      rw [Finset.sdiff_nonempty]
      intro hsub
      exact hne (Finset.eq_of_subset_of_card_le hsub (le_of_eq hcard.symm))
    have hdne2 : (G.toFinset \ takenW.toFinset).Nonempty := by
      rw [Finset.sdiff_nonempty]
      intro hsub
      exact hne (Finset.eq_of_subset_of_card_le hsub
        (le_of_eq hcard)).symm
    obtain ⟨p, hp3⟩ := hdne
    rw [Finset.mem_sdiff] at hp3
    obtain ⟨q, hq3⟩ := hdne2
    rw [Finset.mem_sdiff] at hq3
    have hpW : p ∈ takenW := List.mem_toFinset.mp hp3.1
    have hqG : q ∈ G := List.mem_toFinset.mp hq3.1
    obtain ⟨e, hq4, rfl⟩ := List.mem_map.mp hqG
    rw [mem_range'_iff] at hq4
    have h5 : PairLt t p (obsPair x y e) :=
      hcertW p hpW e (by omega)
        (fun h => hq3.2 (List.mem_toFinset.mpr h))
    obtain ⟨i, hp4, rfl⟩ := List.mem_map.mp (htkmem p hpW)
    rw [mem_range'_iff] at hp4
    have h6 : PairLt t (obsPair x y e) (obsPair x y i) :=
      hcertG _ hqG i (by omega)
        (fun h => hp3.2 (List.mem_toFinset.mpr h))
    exact PairLt_asymm t _ _ h5 h6
  have hpermWG : takenW ~ G :=
    List.perm_of_nodup_nodup_toFinset_eq htknd hGnd hGset
  have hfinal : ((pairs.mergeSort
        (fun p q => decide (|p.1 - t| ≤ |q.1 - t|))).take n).mergeSort
      (fun p q => decide (p.1 ≤ q.1)) = G :=
    mergeSort_key_eq_of_perm (fun p : ℚ × ℚ => p.1) takenW G hpermWG hGpw
  simp only [nearest_points]
  rw [← hpos_def, ← hlo_def, ← hhi_def, hwin, hfinal, heq, hG_def]
  simp only [List.map_map]
  simp [Function.comp, obsPair]

/-! ### Newton and Lagrange compute the same interpolating polynomial -/

theorem injOn_getD_range (x : List ℚ) (hx : x.Nodup) (s : Finset ℕ)
    (hs : ∀ i ∈ s, i < x.length) :
    Set.InjOn (fun k => x.getD k 0) ↑s := by
  intro a ha b hb hab
  have ha2 : a < x.length := hs a (Finset.mem_coe.mp ha)
  have hb2 : b < x.length := hs b (Finset.mem_coe.mp hb)
  simp only at hab
  rw [List.getD_eq_getElem x 0 ha2, List.getD_eq_getElem x 0 hb2] at hab
  exact (@List.Nodup.getElem_inj_iff _ _ hx a ha2 b hb2).mp hab

theorem getD_ne_of_nodup (x : List ℚ) (hx : x.Nodup) (a b : ℕ)
    (ha : a < x.length) (hb : b < x.length) (hab : a ≠ b) :
    x.getD a 0 ≠ x.getD b 0 := by
  intro heq
  rw [List.getD_eq_getElem x 0 ha, List.getD_eq_getElem x 0 hb] at heq
  exact hab ((@List.Nodup.getElem_inj_iff _ _ hx a ha b hb).mp heq)

theorem deg_linear_mul_lt (a : ℚ) (P : ℚ[X]) (m : ℕ)
    (hP : P.degree < (m : ℕ)) :
    ((X - C a) * P).degree < ((m + 1 : ℕ) : WithBot ℕ) := by
  calc ((X - C a) * P).degree ≤ (X - C a).degree + P.degree :=
        degree_mul_le _ _
    _ = 1 + P.degree := by rw [degree_X_sub_C]
    _ < 1 + ((m : ℕ) : WithBot ℕ) :=
        WithBot.add_lt_add_left (by norm_num) hP
    _ = ((m + 1 : ℕ) : WithBot ℕ) := by
        norm_cast
        omega

theorem interpolate_Ico_neville (x y : List ℚ) (hx : x.Nodup) (a b : ℕ)
    (hab : a + 1 < b) (hb : b ≤ x.length) :
    Lagrange.interpolate (Finset.Ico a b) (fun k => x.getD k 0)
        (fun k => y.getD k 0) =
      C ((x.getD (b - 1) 0 - x.getD a 0)⁻¹) *
        ((X - C (x.getD a 0)) *
            Lagrange.interpolate (Finset.Ico (a + 1) b) (fun k => x.getD k 0)
              (fun k => y.getD k 0) -
          (X - C (x.getD (b - 1) 0)) *
            Lagrange.interpolate (Finset.Ico a (b - 1)) (fun k => x.getD k 0)
              (fun k => y.getD k 0)) := by
  have hvs : Set.InjOn (fun k => x.getD k 0) ↑(Finset.Ico a b) :=
    injOn_getD_range x hx _ (fun i hi => by
      rw [Finset.mem_Ico] at hi
      omega)
  have hvs1 : Set.InjOn (fun k => x.getD k 0) ↑(Finset.Ico (a + 1) b) :=
    injOn_getD_range x hx _ (fun i hi => by
      rw [Finset.mem_Ico] at hi
      omega)
  have hvs2 : Set.InjOn (fun k => x.getD k 0) ↑(Finset.Ico a (b - 1)) :=
    injOn_getD_range x hx _ (fun i hi => by
      rw [Finset.mem_Ico] at hi
      omega)
  have hne : x.getD (b - 1) 0 - x.getD a 0 ≠ 0 :=
    sub_ne_zero.mpr (getD_ne_of_nodup x hx (b - 1) a (by omega) (by omega)
      (by omega))
  refine (Lagrange.eq_interpolate_of_eval_eq _ hvs ?_ ?_).symm
  · -- degree bound
    have hcard : (#(Finset.Ico a b) : WithBot ℕ) = ((b - a : ℕ) : WithBot ℕ) := by
      rw [Nat.card_Ico]
    rw [hcard]
    have h1 : ((X - C (x.getD a 0)) *
        Lagrange.interpolate (Finset.Ico (a + 1) b) (fun k => x.getD k 0)
          (fun k => y.getD k 0)).degree < ((b - a : ℕ) : WithBot ℕ) := by
      have hd := Lagrange.degree_interpolate_lt (fun k => y.getD k 0) hvs1
      rw [Nat.card_Ico] at hd
      have := deg_linear_mul_lt (x.getD a 0) _ (b - (a + 1)) hd
      have harith : b - (a + 1) + 1 = b - a := by omega
      rwa [harith] at this
    have h2 : ((X - C (x.getD (b - 1) 0)) *
        Lagrange.interpolate (Finset.Ico a (b - 1)) (fun k => x.getD k 0)
          (fun k => y.getD k 0)).degree < ((b - a : ℕ) : WithBot ℕ) := by
      have hd := Lagrange.degree_interpolate_lt (fun k => y.getD k 0) hvs2
      rw [Nat.card_Ico] at hd
      have := deg_linear_mul_lt (x.getD (b - 1) 0) _ (b - 1 - a) hd
      have harith : b - 1 - a + 1 = b - a := by omega
      rwa [harith] at this
    calc (C ((x.getD (b - 1) 0 - x.getD a 0)⁻¹) * _).degree
        ≤ (C ((x.getD (b - 1) 0 - x.getD a 0)⁻¹)).degree + _ := degree_mul_le _ _
      _ ≤ 0 + _ := by
          exact add_le_add_right (degree_C_le) _
      _ = _ := by rw [zero_add]
      _ < ((b - a : ℕ) : WithBot ℕ) :=
          lt_of_le_of_lt (degree_sub_le _ _) (max_lt h1 h2)
  · intro i hi
    rw [Finset.mem_Ico] at hi
    simp only [eval_mul, eval_sub, eval_X, eval_C]
    by_cases hia : i = a
    · rw [hia]
      have e2 : eval (x.getD a 0) (Lagrange.interpolate (Finset.Ico a (b - 1))
          (fun k => x.getD k 0) (fun k => y.getD k 0)) = y.getD a 0 :=
        Lagrange.eval_interpolate_at_node _ hvs2
          (Finset.mem_Ico.mpr ⟨le_rfl, by omega⟩)
      rw [e2, sub_self, zero_mul, zero_sub]
      rw [show -((x.getD a 0 - x.getD (b - 1) 0) * y.getD a 0) =
        (x.getD (b - 1) 0 - x.getD a 0) * y.getD a 0 from by ring]
      rw [← mul_assoc, inv_mul_cancel₀ hne, one_mul]
    · by_cases hib : i = b - 1
      · rw [hib]
        have e1 : eval (x.getD (b - 1) 0)
            (Lagrange.interpolate (Finset.Ico (a + 1) b)
              (fun k => x.getD k 0) (fun k => y.getD k 0)) = y.getD (b - 1) 0 :=
          Lagrange.eval_interpolate_at_node _ hvs1
            (Finset.mem_Ico.mpr ⟨by omega, by omega⟩)
        rw [e1, sub_self, zero_mul, sub_zero]
        rw [← mul_assoc, inv_mul_cancel₀ hne, one_mul]
      · have e1 : eval (x.getD i 0) (Lagrange.interpolate (Finset.Ico (a + 1) b)
            (fun k => x.getD k 0) (fun k => y.getD k 0)) = y.getD i 0 :=
          Lagrange.eval_interpolate_at_node _ hvs1
            (Finset.mem_Ico.mpr ⟨by omega, by omega⟩)
        have e2 : eval (x.getD i 0) (Lagrange.interpolate (Finset.Ico a (b - 1))
            (fun k => x.getD k 0) (fun k => y.getD k 0)) = y.getD i 0 :=
          Lagrange.eval_interpolate_at_node _ hvs2
            (Finset.mem_Ico.mpr ⟨by omega, by omega⟩)
        rw [e1, e2]
        rw [show (x.getD i 0 - x.getD a 0) * y.getD i 0 -
            (x.getD i 0 - x.getD (b - 1) 0) * y.getD i 0 =
            (x.getD (b - 1) 0 - x.getD a 0) * y.getD i 0 from by ring]
        rw [← mul_assoc, inv_mul_cancel₀ hne, one_mul]

theorem ddc_zero (x y : List ℚ) (i : ℕ) :
    (Lagrange.interpolate (Finset.Ico i (i + 1)) (fun k => x.getD k 0)
      (fun k => y.getD k 0)).coeff 0 = y.getD i 0 := by
  rw [Nat.Ico_succ_singleton, Lagrange.interpolate_singleton, coeff_C_zero]

theorem ddc_rec (x y : List ℚ) (hx : x.Nodup) (i j : ℕ)
    (hij : i + j + 1 < x.length) :
    (Lagrange.interpolate (Finset.Ico i (i + j + 2)) (fun k => x.getD k 0)
        (fun k => y.getD k 0)).coeff (j + 1) =
      ((Lagrange.interpolate (Finset.Ico (i + 1) (i + j + 2))
          (fun k => x.getD k 0) (fun k => y.getD k 0)).coeff j -
        (Lagrange.interpolate (Finset.Ico i (i + j + 1))
          (fun k => x.getD k 0) (fun k => y.getD k 0)).coeff j) /
        (x.getD (i + j + 1) 0 - x.getD i 0) := by
  have hvs1 : Set.InjOn (fun k => x.getD k 0) ↑(Finset.Ico (i + 1) (i + j + 2)) :=
    injOn_getD_range x hx _ (fun k hk => by
      rw [Finset.mem_Ico] at hk
      omega)
  have hvs2 : Set.InjOn (fun k => x.getD k 0) ↑(Finset.Ico i (i + j + 1)) :=
    injOn_getD_range x hx _ (fun k hk => by
      rw [Finset.mem_Ico] at hk
      omega)
  have hnev := interpolate_Ico_neville x y hx i (i + j + 2) (by omega) (by omega)
  have hb1 : i + j + 2 - 1 = i + j + 1 := by omega
  rw [hb1] at hnev
  rw [hnev, coeff_C_mul]
  have hcoeff : ∀ (a : ℚ) (P : ℚ[X]), P.degree < (j + 1 : ℕ) →
      ((X - C a) * P).coeff (j + 1) = P.coeff j := by
    intro a P hP
    rw [sub_mul, coeff_sub, coeff_X_mul, coeff_C_mul,
      coeff_eq_zero_of_degree_lt hP, mul_zero, sub_zero]
  have hd1 : (Lagrange.interpolate (Finset.Ico (i + 1) (i + j + 2))
      (fun k => x.getD k 0) (fun k => y.getD k 0)).degree < (j + 1 : ℕ) := by
    have hd := Lagrange.degree_interpolate_lt (fun k => y.getD k 0) hvs1
    rw [Nat.card_Ico] at hd
    have harith : i + j + 2 - (i + 1) = j + 1 := by omega
    rwa [harith] at hd
  have hd2 : (Lagrange.interpolate (Finset.Ico i (i + j + 1))
      (fun k => x.getD k 0) (fun k => y.getD k 0)).degree < (j + 1 : ℕ) := by
    have hd := Lagrange.degree_interpolate_lt (fun k => y.getD k 0) hvs2
    rw [Nat.card_Ico] at hd
    have harith : i + j + 1 - i = j + 1 := by omega
    rwa [harith] at hd
  rw [coeff_sub, hcoeff _ _ hd1, hcoeff _ _ hd2]
  rw [div_eq_mul_inv, mul_comm]

theorem newtonCol_length (x y : List ℚ) (hlen : y.length = x.length) :
    ∀ j, (newtonCol x y j).length = x.length - j := by
  intro j
  induction j with
  | zero => exact hlen
  | succ j ih =>
    show ((List.range ((newtonCol x y j).length - 1)).map _).length = _
    rw [List.length_map, List.length_range, ih]
    omega

theorem newtonCol_eq_ddc (x y : List ℚ) (hx : x.Nodup)
    (hlen : y.length = x.length) :
    ∀ j, ∀ i, i + j < x.length →
      (newtonCol x y j).getD i 0 =
        (Lagrange.interpolate (Finset.Ico i (i + j + 1)) (fun k => x.getD k 0)
          (fun k => y.getD k 0)).coeff j := by
  intro j
  induction j with
  | zero =>
    intro i hi
    show y.getD i 0 = _
    rw [ddc_zero]
  | succ j ih =>
    intro i hi
    have hlen2 : (newtonCol x y j).length = x.length - j :=
      newtonCol_length x y hlen j
    have hibound : i < (newtonCol x y (j + 1)).length := by
      rw [newtonCol_length x y hlen (j + 1)]
      omega
    show ((List.range ((newtonCol x y j).length - 1)).map _).getD i 0 = _
    have hibound2 : i < ((List.range ((newtonCol x y j).length - 1)).map
        (fun i => ((newtonCol x y j).getD (i + 1) 0 -
          (newtonCol x y j).getD i 0) /
          (x.getD (i + (j + 1)) 0 - x.getD i 0))).length := by
      rw [List.length_map, List.length_range, hlen2]
      omega
    rw [List.getD_eq_getElem _ 0 hibound2, List.getElem_map, List.getElem_range]
    rw [ih (i + 1) (by omega), ih i (by omega)]
    have harith1 : i + 1 + j + 1 = i + j + 2 := by omega
    have harith2 : i + (j + 1) = i + j + 1 := by omega
    rw [harith1, harith2]
    have harith3 : i + j + 1 + 1 = i + j + 2 := by omega
    rw [harith3]
    exact (ddc_rec x y hx i j (by omega)).symm

theorem interpolate_Ico_succ_decomp (x y : List ℚ) (hx : x.Nodup) (m : ℕ)
    (hm1 : 1 ≤ m) (hm : m < x.length) :
    Lagrange.interpolate (Finset.Ico 0 (m + 1)) (fun k => x.getD k 0)
        (fun k => y.getD k 0) =
      Lagrange.interpolate (Finset.Ico 0 m) (fun k => x.getD k 0)
          (fun k => y.getD k 0) +
        (∏ k ∈ Finset.range m, (X - C (x.getD k 0))) *
          C ((Lagrange.interpolate (Finset.Ico 0 (m + 1))
            (fun k => x.getD k 0) (fun k => y.getD k 0)).coeff m) := by
  have hvs : Set.InjOn (fun k => x.getD k 0) ↑(Finset.Ico 0 (m + 1)) :=
    injOn_getD_range x hx _ (fun k hk => by
      rw [Finset.mem_Ico] at hk
      omega)
  have hvs0 : Set.InjOn (fun k => x.getD k 0) ↑(Finset.Ico 0 m) :=
    injOn_getD_range x hx _ (fun k hk => by
      rw [Finset.mem_Ico] at hk
      omega)
  set P1 := Lagrange.interpolate (Finset.Ico 0 (m + 1)) (fun k => x.getD k 0)
    (fun k => y.getD k 0) with hP1
  set P0 := Lagrange.interpolate (Finset.Ico 0 m) (fun k => x.getD k 0)
    (fun k => y.getD k 0) with hP0
  set Pi := ∏ k ∈ Finset.range m, (X - C (x.getD k 0)) with hPi
  set c := P1.coeff m with hc
  have hmonic : Pi.Monic :=
    monic_prod_of_monic _ _ (fun k _ => monic_X_sub_C _)
  have hPideg : Pi.natDegree = m := by
    rw [hPi, natDegree_prod _ _ (fun k _ => X_sub_C_ne_zero _)]
    simp [natDegree_X_sub_C]
  have hPidegd : Pi.degree = (m : ℕ) := by
    rw [degree_eq_natDegree hmonic.ne_zero, hPideg]
  have hroot : ∀ k, k < m → (X - C (x.getD k 0)) ∣ (P1 - P0 - Pi * C c) := by
    intro k hk
    rw [dvd_iff_isRoot]
    have h1 : eval (x.getD k 0) P1 = y.getD k 0 :=
      Lagrange.eval_interpolate_at_node _ hvs
        (Finset.mem_Ico.mpr ⟨by omega, by omega⟩)
    have h2 : eval (x.getD k 0) P0 = y.getD k 0 :=
      Lagrange.eval_interpolate_at_node _ hvs0
        (Finset.mem_Ico.mpr ⟨by omega, by omega⟩)
    have h3 : eval (x.getD k 0) Pi = 0 := by
      rw [hPi, eval_prod]
      apply Finset.prod_eq_zero (Finset.mem_range.mpr hk)
      simp
    show eval (x.getD k 0) (P1 - P0 - Pi * C c) = 0
    rw [eval_sub, eval_sub, eval_mul, eval_C, h1, h2, h3]
    ring
  have hpairs : (↑(Finset.range m) : Set ℕ).Pairwise
      (Function.onFun IsCoprime (fun k => X - C (x.getD k 0))) := by
    intro a2 ha b2 hb hab
    have ha2 : a2 < m := Finset.mem_range.mp (Finset.mem_coe.mp ha)
    have hb2 : b2 < m := Finset.mem_range.mp (Finset.mem_coe.mp hb)
    show IsCoprime (X - C (x.getD a2 0)) (X - C (x.getD b2 0))
    apply Polynomial.isCoprime_X_sub_C_of_isUnit_sub
    apply isUnit_iff_ne_zero.mpr
    exact sub_ne_zero.mpr
      (getD_ne_of_nodup x hx a2 b2 (by omega) (by omega) hab)
  have hdvd : Pi ∣ (P1 - P0 - Pi * C c) := by
    rw [hPi]
    exact Finset.prod_dvd_of_coprime hpairs
      (fun k hk => hroot k (Finset.mem_range.mp hk))
  have hdegP1 : P1.degree < ((m + 1 : ℕ) : WithBot ℕ) := by
    have hd := Lagrange.degree_interpolate_lt (fun k => y.getD k 0) hvs
    rw [Nat.card_Ico] at hd
    have harith : m + 1 - 0 = m + 1 := by omega
    rwa [harith] at hd
  have hdegP0 : P0.degree < ((m : ℕ) : WithBot ℕ) := by
    have hd := Lagrange.degree_interpolate_lt (fun k => y.getD k 0) hvs0
    rw [Nat.card_Ico] at hd
    have harith : m - 0 = m := by omega
    rwa [harith] at hd
  have hdegD : (P1 - P0).degree ≤ ((m : ℕ) : WithBot ℕ) := by
    have hmax : max P1.degree P0.degree < ((m + 1 : ℕ) : WithBot ℕ) :=
      max_lt hdegP1 (lt_trans hdegP0 (by exact_mod_cast Nat.lt_succ_self m))
    have h4 := lt_of_le_of_lt (degree_sub_le P1 P0) hmax
    exact Order.lt_succ_iff.mp (by exact_mod_cast h4)
  have hdegE : (Pi * C c).degree ≤ ((m : ℕ) : WithBot ℕ) := by
    calc (Pi * C c).degree ≤ Pi.degree + (C c).degree := degree_mul_le _ _
      _ ≤ ((m : ℕ) : WithBot ℕ) + 0 :=
          add_le_add (le_of_eq hPidegd) degree_C_le
      _ = ((m : ℕ) : WithBot ℕ) := add_zero _
  have hcoeffm : (P1 - P0 - Pi * C c).coeff m = 0 := by
    have h0 : P0.coeff m = 0 := coeff_eq_zero_of_degree_lt hdegP0
    have hPc : (Pi * C c).coeff m = c := by
      rw [mul_comm, coeff_C_mul, ← hPideg, hmonic.coeff_natDegree, mul_one]
    rw [coeff_sub, coeff_sub, h0, hPc, ← hc]
    ring
  have hdegDE : (P1 - P0 - Pi * C c).degree < ((m : ℕ) : WithBot ℕ) := by
    rw [degree_lt_iff_coeff_zero]
    intro k hk
    rcases eq_or_lt_of_le hk with heq | hk2
    · rw [← heq]
      exact hcoeffm
    · apply coeff_eq_zero_of_degree_lt
      have h5 : (P1 - P0 - Pi * C c).degree ≤ ((m : ℕ) : WithBot ℕ) :=
        le_trans (degree_sub_le _ _) (max_le hdegD hdegE)
      exact lt_of_le_of_lt h5 (by exact_mod_cast Nat.cast_lt.mpr hk2)
  have hzero : P1 - P0 - Pi * C c = 0 :=
    Polynomial.eq_zero_of_dvd_of_degree_lt hdvd (by rw [hPidegd]; exact hdegDE)
  have h6 : P1 - P0 = Pi * C c := by
    have := sub_eq_zero.mp hzero
    linear_combination this
  linear_combination h6

theorem eval_interpolate_prefix (x y : List ℚ) (hx : x.Nodup) (t : ℚ) :
    ∀ m, m + 1 ≤ x.length →
      eval t (Lagrange.interpolate (Finset.Ico 0 (m + 1))
        (fun k => x.getD k 0) (fun k => y.getD k 0)) =
      y.getD 0 0 +
        ∑ j ∈ Finset.range m,
          (Lagrange.interpolate (Finset.Ico 0 (j + 2)) (fun k => x.getD k 0)
            (fun k => y.getD k 0)).coeff (j + 1) *
            ∏ k ∈ Finset.range (j + 1), (t - x.getD k 0) := by
  intro m
  induction m with
  | zero =>
    intro hm
    rw [Nat.Ico_succ_singleton, Lagrange.interpolate_singleton]
    simp
  | succ m ih =>
    intro hm
    have hdecomp := interpolate_Ico_succ_decomp x y hx (m + 1) (by omega)
      (by omega)
    rw [show m + 1 + 1 = m + 2 from rfl] at hdecomp ⊢
    rw [hdecomp, eval_add, eval_mul, eval_C, eval_prod]
    simp only [eval_sub, eval_X, eval_C]
    rw [ih (by omega), Finset.sum_range_succ]
    ring

theorem getD_map_range (f : ℕ → ℚ) (n i : ℕ) (hi : i < n) :
    ((List.range n).map f).getD i 0 = f i := by
  rw [List.getD_eq_getElem?_getD, List.getElem?_map, List.getElem?_range hi]
  rfl

theorem newton_fold_sum (x c : List ℚ) (t : ℚ) (m : ℕ) :
    (List.range m).foldl (fun (s : ℚ × ℚ) j =>
        (s.1 + c.getD (j + 1) 0 * (s.2 * (t - x.getD j 0)),
         s.2 * (t - x.getD j 0))) (c.getD 0 0, 1) =
      (c.getD 0 0 + ∑ j ∈ Finset.range m,
          c.getD (j + 1) 0 * ∏ k ∈ Finset.range (j + 1), (t - x.getD k 0),
        ∏ k ∈ Finset.range m, (t - x.getD k 0)) := by
  induction m with
  | zero => simp
  | succ m ih =>
    rw [List.range_succ, List.foldl_append, ih]
    rw [Finset.sum_range_succ]
    rw [Finset.prod_range_succ (fun k => t - x.getD k 0) m]
    simp only [List.foldl_cons, List.foldl_nil, Prod.mk.injEq]
    exact ⟨by ring, trivial⟩

theorem newton_eq_eval_interpolate (x y : List ℚ) (t : ℚ) (hx : x.Nodup)
    (hlen : y.length = x.length) (hn : 1 ≤ x.length) :
    (divided_difference_newton x y t).1 =
      eval t (Lagrange.interpolate (Finset.Ico 0 x.length)
        (fun k => x.getD k 0) (fun k => y.getD k 0)) := by
  obtain ⟨m, hm⟩ : ∃ m, x.length = m + 1 := ⟨x.length - 1, by omega⟩
  have hpre := eval_interpolate_prefix x y hx t m (by omega)
  unfold divided_difference_newton
  dsimp only []
  rw [hm, Nat.add_sub_cancel, newton_fold_sum, hpre]
  dsimp only
  congr 1
  · rw [getD_map_range _ _ 0 (by omega)]
    rfl
  · apply Finset.sum_congr rfl
    intro j hj
    have hj2 : j < m := Finset.mem_range.mp hj
    congr 1
    rw [getD_map_range _ _ (j + 1) (by omega)]
    have hddc := newtonCol_eq_ddc x y hx hlen (j + 1) 0 (by omega)
    have harith : 0 + (j + 1) + 1 = j + 2 := by omega
    rw [harith] at hddc
    exact hddc

theorem foldl_range_add (g : ℕ → ℚ) (n : ℕ) (a : ℚ) :
    (List.range n).foldl (fun total i => total + g i) a =
      a + ∑ i ∈ Finset.range n, g i := by
  induction n with
  | zero => simp
  | succ n ih =>
    rw [List.range_succ, List.foldl_append, ih, Finset.sum_range_succ]
    simp only [List.foldl_cons, List.foldl_nil]
    ring

theorem foldl_range_if_mul (h : ℕ → ℚ) (i n : ℕ) :
    (List.range n).foldl (fun Li j =>
        if i = j then Li else Li * h j) 1 =
      ∏ j ∈ (Finset.range n).erase i, h j := by
  induction n with
  | zero => simp
  | succ n ih =>
    rw [List.range_succ, List.foldl_append, ih]
    simp only [List.foldl_cons, List.foldl_nil]
    by_cases hc : i = n
    · rw [if_pos hc, hc, Finset.range_succ,
        Finset.erase_insert (by simp), Finset.erase_eq_of_not_mem (by simp)]
    · rw [if_neg hc, Finset.range_succ, Finset.erase_insert_of_ne (Ne.symm hc),
        Finset.prod_insert (by simp)]
      ring

theorem lagrange_eq_eval_interpolate (x y : List ℚ) (t : ℚ) :
    lagrange_interpolation x y t =
      eval t (Lagrange.interpolate (Finset.Ico 0 x.length)
        (fun k => x.getD k 0) (fun k => y.getD k 0)) := by
  unfold lagrange_interpolation
  dsimp only []
  rw [foldl_range_add (fun i => y.getD i 0 *
      ((List.range x.length).foldl (fun Li j =>
        if i = j then Li
        else Li * ((t - x.getD j 0) / (x.getD i 0 - x.getD j 0))) 1))
    x.length 0]
  rw [zero_add, ← Finset.range_eq_Ico, Lagrange.interpolate_apply,
    Polynomial.eval_finset_sum]
  apply Finset.sum_congr rfl
  intro i hi
  rw [foldl_range_if_mul
    (fun j => (t - x.getD j 0) / (x.getD i 0 - x.getD j 0)) i x.length]
  rw [eval_mul, eval_C]
  simp only [Lagrange.basis, eval_prod, Lagrange.basisDivisor, eval_mul,
    eval_C, eval_sub, eval_X]
  congr 1
  apply Finset.prod_congr rfl
  intro j hj
  rw [div_eq_mul_inv]
  ring

/-- C1: for every selection with pairwise distinct coordinates (of matching
lengths, with at least one point) and every target, the Newton
divided-difference evaluator and the Lagrange evaluator return the same
estimate in exact rational arithmetic: both compute the value at the target
of the unique interpolating polynomial through the selected points. -/
theorem newton_eq_lagrange (x y : List ℚ) (t : ℚ) (hx : x.Nodup)
    (hlen : y.length = x.length) (hn : 1 ≤ x.length) :
    newton_interpolation x y t = lagrange_interpolation x y t := by
  unfold newton_interpolation
  rw [newton_eq_eval_interpolate x y t hx hlen hn,
    ← lagrange_eq_eval_interpolate x y t]

theorem newton_eq_lagrange_witness :
    (([(1 : ℚ), 2, 3] : List ℚ).Nodup ∧
      ([(7 : ℚ), 8, 9] : List ℚ).length = ([(1 : ℚ), 2, 3] : List ℚ).length ∧
      1 ≤ ([(1 : ℚ), 2, 3] : List ℚ).length) ∧
    newton_interpolation [(1 : ℚ), 2, 3] [7, 8, 9] 5 =
      lagrange_interpolation [(1 : ℚ), 2, 3] [7, 8, 9] 5 :=
  ⟨⟨by norm_num, by simp, by simp⟩,
   newton_eq_lagrange [(1 : ℚ), 2, 3] [7, 8, 9] 5 (by norm_num) (by simp)
     (by simp)⟩

/-- C9: when the target coincides with a stored coordinate of the selection
(the `i`-th one), both the Newton evaluator and the Lagrange evaluator
return exactly the stored value at that coordinate in exact arithmetic. -/
theorem interpolation_reproduces_node (x y : List ℚ) (i : ℕ)
    (hx : x.Nodup) (hlen : y.length = x.length) (hi : i < x.length) :
    newton_interpolation x y (x.getD i 0) = y.getD i 0 ∧
    lagrange_interpolation x y (x.getD i 0) = y.getD i 0 := by
  have hvs : Set.InjOn (fun k => x.getD k 0) ↑(Finset.Ico 0 x.length) :=
    injOn_getD_range x hx _ (fun k hk => (Finset.mem_Ico.mp hk).2)
  have hnode : eval (x.getD i 0)
      (Lagrange.interpolate (Finset.Ico 0 x.length)
        (fun k => x.getD k 0) (fun k => y.getD k 0)) = y.getD i 0 :=
    Lagrange.eval_interpolate_at_node (fun k => y.getD k 0) hvs
      (Finset.mem_Ico.mpr ⟨Nat.zero_le _, hi⟩)
  constructor
  · unfold newton_interpolation
    rw [newton_eq_eval_interpolate x y _ hx hlen (by omega), hnode]
  · rw [lagrange_eq_eval_interpolate, hnode]

theorem interpolation_reproduces_node_witness :
    (([(1 : ℚ), 2, 3] : List ℚ).Nodup ∧
      ([(7 : ℚ), 8, 9] : List ℚ).length = ([(1 : ℚ), 2, 3] : List ℚ).length ∧
      1 < ([(1 : ℚ), 2, 3] : List ℚ).length) ∧
    (newton_interpolation [(1 : ℚ), 2, 3] [7, 8, 9]
        (([(1 : ℚ), 2, 3] : List ℚ).getD 1 0) =
      ([(7 : ℚ), 8, 9] : List ℚ).getD 1 0 ∧
     lagrange_interpolation [(1 : ℚ), 2, 3] [7, 8, 9]
        (([(1 : ℚ), 2, 3] : List ℚ).getD 1 0) =
      ([(7 : ℚ), 8, 9] : List ℚ).getD 1 0) :=
  ⟨⟨by norm_num, by simp, by simp⟩,
   interpolation_reproduces_node [(1 : ℚ), 2, 3] [7, 8, 9] 1 (by norm_num)
     (by simp) (by simp)⟩

theorem nearest_points_eq_choose_nearest_points_witness :
    (([(1 : ℚ), 2, 3] : List ℚ).Pairwise (· < ·) ∧
      ([(7 : ℚ), 8, 9] : List ℚ).length = ([(1 : ℚ), 2, 3] : List ℚ).length ∧
      2 ≤ ([(1 : ℚ), 2, 3] : List ℚ).length) ∧
    nearest_points [(1 : ℚ), 2, 3] [7, 8, 9] (5/2) 2 =
      ((choose_nearest_points [(1 : ℚ), 2, 3] [7, 8, 9] (5/2) 2).1,
       (choose_nearest_points [(1 : ℚ), 2, 3] [7, 8, 9] (5/2) 2).2.1) :=
  ⟨⟨by norm_num [List.pairwise_cons], by simp, by simp⟩,
   nearest_points_eq_choose_nearest_points [(1 : ℚ), 2, 3] [7, 8, 9] (5/2) 2
     (by norm_num [List.pairwise_cons]) (by simp) (by simp)⟩

end EggPrice
